import Mathlib

/-!
SIMcTEM: synthetic instance-segmentation dataset generator

A shallow embedding of `src/circle.cpp` and proofs about it.

* C++ `int` values are `Int` (no property below depends on 32-bit wrap-around).
* A `cv::Mat` is its dimensions plus a total map from `(row, column)` to a pixel value;
  only in-range pixels are meaningful. Loops over pixels are folds that update this map.
* Finite `float` values are rationals, every arithmetic operation is rounded to nearest
  (ties to even); see the section on floating point.
* Random sources are explicit: a generator state with a draw function for
  `std::uniform_int_distribution`, a stream of draws for `std::normal_distribution`.
* The text written to a file is the value of the function that writes it.
* A call that can end without a result (an exception, a violated library precondition)
  returns an `Outcome`.
-/

set_option linter.unusedVariables false

namespace SIMcTEM

/-! ## Data model -/

/-- The record `struct Circle` of `circle.cpp`; `color` is the gray triple passed to
`cv::Scalar`. -/
structure Circle where
  id : Int
  x : Int
  y : Int
  radius : Int
  intensity : Int
  color : Int × Int × Int
  overlapping : Bool
  deriving DecidableEq, Repr

/-- A single-channel `cv::Mat`: `rows`, `cols` and the pixel at `(y, x)`. -/
structure Mat (α : Type) where
  rows : Int
  cols : Int
  data : Int → Int → α

/-- The accessor `mat.at<T>(y, x)`. -/
def Mat.at_ {α : Type} (m : Mat α) (y x : Int) : α := m.data y x

/-- The assignment `mat.at<T>(y, x) = v`. -/
def Mat.set {α : Type} (m : Mat α) (y x : Int) (v : α) : Mat α :=
  { m with data := fun y1 x1 => if y1 = y ∧ x1 = x then v else m.data y1 x1 }

/-- The constructor `cv::Mat::zeros(rows, cols, type)`. -/
def Mat.zeros {α : Type} [Zero α] (rows cols : Int) : Mat α :=
  { rows := rows, cols := cols, data := fun _ _ => 0 }

/-- The loop `for (int i = lo; i < hi; i++) body`, threading the state `s`. -/
def forRange {σ : Type} (lo hi : Int) (body : Int → σ → σ) (s : σ) : σ :=
  (List.range (hi - lo).toNat).foldl (fun st (k : Nat) => body (lo + (k : Int)) st) s

/-! ## Scene sampler -/

/-- How a call can end without a result: `length_error` is the `std::length_error` thrown
by `std::vector::reserve`; `undefined_behaviour` is a `std::uniform_int_distribution<int>(a, b)`
built with `a > b`, which violates the precondition `a ≤ b` of the distribution (the call
has no defined result); `cv_error` is a `cv::Exception` raised by an OpenCV routine. -/
inductive Failure where
  | length_error
  | undefined_behaviour
  | cv_error
  deriving DecidableEq, Repr

/-- The result of a call that may end without one. -/
inductive Outcome (α : Type) where
  | ok (value : α)
  | failed (why : Failure)
  deriving DecidableEq, Repr

/-- The loop of `generate_random_circles`: `k` iterations remain, `i` is the loop counter,
`draw g lo hi` is `std::uniform_int_distribution<int>(lo, hi)(gen)` on generator state `g`
for `lo ≤ hi`. The distributions `x_dist(radius, img_width - radius)` and
`y_dist(radius, img_height - radius)` are built before either is drawn from. -/
def generate_random_circles_loop {σ : Type} (draw : σ → Int → Int → Int × σ)
    (img_width img_height radius_min radius_max : Int) :
    Nat → Int → σ → List Circle → Outcome (List Circle)
  | 0, _, _, circles => .ok circles
  | k + 1, i, gen, circles =>
    let r := draw gen radius_min radius_max
    let radius := r.1
    let t := draw r.2 30 150
    let intensity := t.1
    if radius ≤ img_width - radius ∧ radius ≤ img_height - radius then
      let cx := draw t.2 radius (img_width - radius)
      let cy := draw cx.2 radius (img_height - radius)
      let c : Circle :=
        { id := i, x := cx.1, y := cy.1, radius := radius, intensity := intensity,
          color := (intensity, intensity, intensity), overlapping := false }
      generate_random_circles_loop draw img_width img_height radius_min radius_max
        k (i + 1) cy.2 (circles ++ [c])
    else .failed .undefined_behaviour

/-- The function `generate_random_circles`; `gen` is the freshly seeded generator.
`circles.reserve(n)` comes first and throws for `n < 0` (the size converts to a huge
unsigned value); then `radius_dist(radius_min, radius_max)` is built. Memory is taken to
be sufficient. -/
def generate_random_circles {σ : Type} (draw : σ → Int → Int → Int × σ) (gen : σ)
    (n img_width img_height radius_min radius_max : Int) : Outcome (List Circle) :=
  if n < 0 then .failed .length_error
  else if radius_max < radius_min then .failed .undefined_behaviour
  else
    generate_random_circles_loop draw img_width img_height radius_min radius_max
      n.toNat 0 gen []

/-- The circle built by one iteration of the loop of `generate_random_circles`, started on
generator state `gen` with loop counter `i`. -/
def sampled_circle {σ : Type} (draw : σ → Int → Int → Int × σ)
    (img_width img_height radius_min radius_max : Int) (gen : σ) (i : Int) : Circle :=
  let r := draw gen radius_min radius_max
  let t := draw r.2 30 150
  let cx := draw t.2 r.1 (img_width - r.1)
  let cy := draw cx.2 r.1 (img_height - r.1)
  { id := i, x := cx.1, y := cy.1, radius := r.1, intensity := t.1,
    color := (t.1, t.1, t.1), overlapping := false }

/-- The property every sampled circle is meant to satisfy. -/
def circle_ok (W H rmin rmax : Int) (k : Int) (c : Circle) : Prop :=
  c.id = k ∧ rmin ≤ c.radius ∧ c.radius ≤ rmax ∧ 30 ≤ c.intensity ∧ c.intensity ≤ 150 ∧
    c.radius ≤ c.x ∧ c.x ≤ W - c.radius ∧ c.radius ≤ c.y ∧ c.y ≤ H - c.radius

/-- A random source that returns the upper end of the requested range when its state is
`true` and the lower end otherwise. -/
def drawEnd : Bool → Int → Int → Int × Bool :=
  fun g lo hi => (if g then hi else lo, g)

/-- A random source that walks through the requested range (when it is non-empty). -/
def drawCycle : Nat → Int → Int → Int × Nat :=
  fun g lo hi => (lo + ((g : Int) % (hi - lo + 1)), g + 1)

/-! ## Instance-mask rasterizer -/

/-- Conversion of a `cv::Scalar` component to a `CV_16U` pixel (`saturate_cast<ushort>`). -/
def saturate_u16 (v : Int) : Nat :=
  if v < 0 then 0 else if 65535 < v then 65535 else v.toNat

/-- The Euclidean disk test `dx² + dy² ≤ r²` of circle `c` at pixel `(x, y)`. -/
def in_disk (c : Circle) (x y : Int) : Bool :=
  decide ((x - c.x) * (x - c.x) + (y - c.y) * (y - c.y) ≤ c.radius * c.radius)

/-- Modelled from the spec: the OpenCV routine `cv::circle(img, center, radius, color, -1)` is
not part of the repository; following §4.2 it fills, inside the image, exactly the pixels
with `dx² + dy² ≤ r²` with `color`. This describes calls with `radius ≥ 0`; the library
refuses a negative radius. -/
def cv_circle {α : Type} (img : Mat α) (cx cy radius : Int) (color : α) : Mat α :=
  { img with
    data := fun y x =>
      if 0 ≤ y ∧ y < img.rows ∧ 0 ≤ x ∧ x < img.cols ∧
          (x - cx) * (x - cx) + (y - cy) * (y - cy) ≤ radius * radius
      then color else img.data y x }

/-- The function `generate_instance_mask`: a zeroed `CV_16UC1` image on which the circles
are drawn in scene order with value `id + 1`. -/
def generate_instance_mask (circles : List Circle) (img_width img_height : Int) : Mat Nat :=
  circles.foldl
    (fun mask circle => cv_circle mask circle.x circle.y circle.radius
      (saturate_u16 (circle.id + 1)))
    (Mat.zeros img_height img_width)

/-- The last circle in scene order whose disk contains `(x, y)`, if any. -/
def last_covering : List Circle → Int → Int → Option Circle
  | [], _, _ => none
  | c :: cs, x, y =>
    match last_covering cs x y with
    | some d => some d
    | none => if in_disk c x y then some c else none

/-- The label the "later wins" rule assigns to `(x, y)`. -/
def later_wins_label (circles : List Circle) (x y : Int) : Int :=
  match last_covering circles x y with
  | some c => c.id + 1
  | none => 0

/-! ## Floating point

Finite `float`/`double` values are the rationals they denote; comparison and `std::min`,
`std::max` on finite values are those of `ℚ`. An arithmetic operation is the exact rational
operation followed by round-to-nearest, ties-to-even, to the format's precision (IEEE 754);
the exponent range is not bounded, which is exact as long as results stay in the normal
range (`2⁻¹²⁶ ≤ |v| < 2¹²⁸` for `float`), as all values computed from 32-bit integers and
pixel intensities here do. Every operation of an expression is rounded on its own (no fused
multiply-add, no extended intermediate precision). -/

/-- Round to the nearest integer, ties to the even one. -/
def round_half_even (x : ℚ) : Int :=
  if x - ⌊x⌋ < 1 / 2 then ⌊x⌋
  else if 1 / 2 < x - ⌊x⌋ then ⌊x⌋ + 1
  else if ⌊x⌋ % 2 = 0 then ⌊x⌋ else ⌊x⌋ + 1

/-- Floor of the binary logarithm of a natural number, with explicit fuel. -/
def log2_fuel : Nat → Nat → Nat
  | 0, _ => 0
  | fuel + 1, n => if n < 2 then 0 else log2_fuel fuel (n / 2) + 1

/-- Floor of the binary logarithm of a positive natural number. -/
def nat_log2 (n : Nat) : Nat := log2_fuel n n

/-- Floor of the binary logarithm of a positive rational: the binary exponent of `q`. -/
def ilog2 (q : ℚ) : Int :=
  if (2 : ℚ) ^ ((nat_log2 q.num.toNat : Int) - (nat_log2 q.den : Int)) ≤ q
  then (nat_log2 q.num.toNat : Int) - (nat_log2 q.den : Int)
  else (nat_log2 q.num.toNat : Int) - (nat_log2 q.den : Int) - 1

/-- Round `q` to the nearest binary floating-point number with a `p`-bit significand. -/
def fp_round (p : Nat) (q : ℚ) : ℚ :=
  if q = 0 then 0
  else (round_half_even (q / 2 ^ (ilog2 |q| - ((p : Int) - 1))) : ℚ) *
    2 ^ (ilog2 |q| - ((p : Int) - 1))

/-- Rounding to `float` (binary32, 24-bit significand). -/
def f32_round (q : ℚ) : ℚ := fp_round 24 q

/-- Rounding to `double` (binary64, 53-bit significand). -/
def f64_round (q : ℚ) : ℚ := fp_round 53 q

/-- A `float` sum. -/
def f32_add (a b : ℚ) : ℚ := f32_round (a + b)

/-- A `float` product. -/
def f32_mul (a b : ℚ) : ℚ := f32_round (a * b)

/-- A `float` quotient (the divisor is not zero). -/
def f32_div (a b : ℚ) : ℚ := f32_round (a / b)

/-- Newton iteration for the integer square root, with explicit fuel. -/
def isqrt_iter (n : Nat) : Nat → Nat → Nat
  | 0, guess => guess
  | fuel + 1, guess =>
    if (guess + n / guess) / 2 < guess then isqrt_iter n fuel ((guess + n / guess) / 2)
    else guess

/-- Integer square root: the largest `s` with `s * s ≤ n`. -/
def isqrt (n : Nat) : Nat :=
  if n ≤ 1 then n else isqrt_iter n (n / 2) (n / 2)

/-- The correctly rounded square root of `q` with a `p`-bit significand. -/
def fp_sqrt (p : Nat) (q : ℚ) : ℚ :=
  if q ≤ 0 then 0
  else
    let ulp : ℚ := 2 ^ (ilog2 q / 2 - ((p : Int) - 1))
    let m : ℚ := q / (ulp * ulp)
    let s : Nat := isqrt ⌊m⌋.toNat
    let half : ℚ := ((s : ℚ) + 1 / 2) * ((s : ℚ) + 1 / 2)
    let up : Bool :=
      if m < half then false else if half < m then true else decide (s % 2 = 1)
    (((if up then s + 1 else s : Nat) : Int) : ℚ) * ulp

/-- The expression `std::sqrt(k)` for an `int` `k` (computed in `double`) stored in a
`float` variable. -/
def f32_sqrt_int (k : Int) : ℚ := f32_round (fp_sqrt 53 (k : ℚ))

/-- The function `std::min(a, b)`, i.e. `(b < a) ? b : a`. -/
def fmin (a b : ℚ) : ℚ := if b < a then b else a

/-- The function `std::max(a, b)`, i.e. `(a < b) ? b : a`. -/
def fmax (a b : ℚ) : ℚ := if a < b then b else a

/-! ## Image renderer -/

/-- The body of the pixel loop of `draw_single_circle_with_gradient` at `(y, x)`; the state
is the layer and the number of draws taken from the texture generator. For `radius = 0`
the quotient `dist / radius` is `0/0 = NaN`, which the clamp turns into `255`. -/
def gradient_pixel (circle : Circle) (intensity_variation : Nat → ℚ) (y x : Int)
    (st : Mat ℚ × Nat) : Mat ℚ × Nat :=
  let dx := x - circle.x
  let dy := y - circle.y
  let dist := f32_sqrt_int (dx * dx + dy * dy)
  if dist ≤ f32_round (circle.radius : ℚ) then
    let normalized_dist := f32_div dist (f32_round (circle.radius : ℚ))
    let gradient_factor :=
      f32_add (f32_round (7 / 10)) (f32_mul (f32_round (3 / 10)) normalized_dist)
    let texture_noise := intensity_variation st.2
    let pixel_intensity :=
      f32_add (f32_mul (f32_round (circle.intensity : ℚ)) gradient_factor) texture_noise
    let pixel_intensity :=
      if circle.radius = 0 then 255 else fmax 0 (fmin 255 pixel_intensity)
    (st.1.set y x pixel_intensity, st.2 + 1)
  else st

/-- The function `draw_single_circle_with_gradient`; `intensity_variation` is the stream of
values the locally seeded `std::normal_distribution<float>(0, 5)` produces. -/
def draw_single_circle_with_gradient (width height : Int) (circle : Circle)
    (intensity_variation : Nat → ℚ) : Mat ℚ :=
  (forRange (max 0 (circle.y - circle.radius))
    (min (height - 1) (circle.y + circle.radius) + 1)
    (fun y st =>
      forRange (max 0 (circle.x - circle.radius))
        (min (width - 1) (circle.x + circle.radius) + 1)
        (fun x st1 => gradient_pixel circle intensity_variation y x st1) st)
    (Mat.zeros height width, 0)).1

/-- The background loop of `draw_realistic_circles`: every pixel receives the next draw of
`std::normal_distribution<float>(180, 15)`. -/
def background_noise (img_width img_height : Int) (noise : Nat → ℚ) : Mat ℚ :=
  (forRange 0 img_height
    (fun y st =>
      forRange 0 img_width (fun x st1 => (st1.1.set y x (noise st1.2), st1.2 + 1)) st)
    ((Mat.zeros img_height img_width : Mat ℚ), 0)).1

/-- The compositing loop of `draw_realistic_circles` for one circle layer. -/
def composite_layer (img_width img_height : Int) (image circle_layer : Mat ℚ) : Mat ℚ :=
  forRange 0 img_height
    (fun y img =>
      forRange 0 img_width
        (fun x img1 =>
          if 0 < circle_layer.at_ y x then
            img1.set y x (fmin (img1.at_ y x) (circle_layer.at_ y x))
          else img1) img)
    image

/-- The effect of one pass of the compositing loop on the value `v` of pixel `(y, x)`. -/
def composite_pixel (img_width img_height : Int) (circle_layer : Mat ℚ) (y x : Int)
    (v : ℚ) : ℚ :=
  if (0 ≤ y ∧ y < img_height) ∧ 0 ≤ x ∧ x < img_width then
    if 0 < circle_layer.at_ y x then fmin v (circle_layer.at_ y x) else v
  else v

/-- The compositing loop run over a list of already drawn layers. -/
def composite_layers (img_width img_height : Int) (image : Mat ℚ) (layers : List (Mat ℚ)) :
    Mat ℚ :=
  layers.foldl (composite_layer img_width img_height) image

/-- The loop "draw each circle" of `draw_realistic_circles`, started on `image`: the `k`-th
circle is drawn with the texture stream `rd k` of its own generator and composited. -/
def draw_circles_onto (img_width img_height : Int) (rd : Nat → Nat → ℚ)
    (circles : List Circle) (image : Mat ℚ) : Mat ℚ :=
  (circles.foldl
    (fun st circle =>
      (composite_layer img_width img_height st.1
        (draw_single_circle_with_gradient img_width img_height circle (rd st.2)), st.2 + 1))
    (image, 0)).1

/-- The layers the loop of `draw_realistic_circles` draws, in scene order; the first circle
of the list uses the texture stream `rd k`. -/
def circle_layers (img_width img_height : Int) (rd : Nat → Nat → ℚ) :
    Nat → List Circle → List (Mat ℚ)
  | _, [] => []
  | k, c :: rest =>
    draw_single_circle_with_gradient img_width img_height c (rd k) ::
      circle_layers img_width img_height rd (k + 1) rest

/-- A circle of intensity 30 and radius 1 centred in a 3×3 image. -/
def dark_circle : Circle :=
  { id := 0, x := 1, y := 1, radius := 1, intensity := 30, color := (30, 30, 30),
    overlapping := false }

/-- A second circle on the same pixels as `dark_circle`. -/
def other_circle : Circle :=
  { id := 1, x := 1, y := 1, radius := 1, intensity := 90, color := (90, 90, 90),
    overlapping := false }

/-- A 2×2 layer with value `v` at every pixel. -/
def flat_layer (v : ℚ) : Mat ℚ := { rows := 2, cols := 2, data := fun _ _ => v }

/-- The function `draw_realistic_circles` up to, and excluding, the conversion to 8 bit and
the blur. The parameter `add_texture` is not consulted, as in the source. -/
def draw_realistic_circles_preblur (circles : List Circle) (img_width img_height : Int)
    (add_texture : Bool) (noise : Nat → ℚ) (rd : Nat → Nat → ℚ) : Mat ℚ :=
  draw_circles_onto img_width img_height rd circles
    (background_noise img_width img_height noise)

/-! ## Split assigner -/

/-- A `float` value: a finite number, an infinity or NaN. -/
inductive Float32 where
  | fin (q : ℚ)
  | pinf
  | ninf
  | nan
  deriving DecidableEq

/-- The `float` sum `a + b`; a finite sum that rounds to `2¹²⁸` or beyond overflows. -/
def Float32.add : Float32 → Float32 → Float32
  | .fin a, .fin b =>
    if 2 ^ 128 ≤ f32_round (a + b) then .pinf
    else if f32_round (a + b) ≤ -(2 ^ 128) then .ninf
    else .fin (f32_round (a + b))
  | .nan, _ => .nan
  | _, .nan => .nan
  | .pinf, .ninf => .nan
  | .ninf, .pinf => .nan
  | .pinf, _ => .pinf
  | _, .pinf => .pinf
  | .ninf, _ => .ninf
  | _, .ninf => .ninf

/-- The comparison `r < t` of a finite `float` `r` with a `float` `t`. -/
def Float32.fin_lt (r : ℚ) : Float32 → Bool
  | .fin t => decide (r < t)
  | .pinf => true
  | .ninf => false
  | .nan => false

/-- The function `get_split_name`. -/
def get_split_name (idx total : Int) (train_split val_split : Float32) : String :=
  let ratio := f32_div (f32_round (idx : ℚ)) (f32_round (total : ℚ))
  if Float32.fin_lt ratio train_split then "train"
  else if Float32.fin_lt ratio (train_split.add val_split) then "val"
  else "test"

/-- The order `train < val < test` on split names. -/
def split_rank (s : String) : Nat :=
  if s = "train" then 0 else if s = "val" then 1 else 2

/-- The value of `config.train_split` after `config.train_split = 0.7;` in `main`. -/
def train_split_default : Float32 := .fin (f32_round (f64_round (7 / 10)))

/-- The value of `config.val_split` after `config.val_split = 0.15;` in `main`. -/
def val_split_default : Float32 := .fin (f32_round (f64_round (15 / 100)))

/-! ## Annotation serializer -/

/-- The character of the decimal digit `d`. -/
def digit_char (d : Nat) : Char := Char.ofNat (48 + d)

/-- Decimal digits of `n`, most significant first, in front of `acc`; `fuel` bounds the
number of digits. -/
def show_nat_aux : Nat → Nat → List Char → List Char
  | 0, _, acc => acc
  | fuel + 1, n, acc =>
    if n < 10 then digit_char n :: acc
    else show_nat_aux fuel (n / 10) (digit_char (n % 10) :: acc)

/-- What `file << n` writes for an unsigned integer `n`. -/
def show_nat (n : Nat) : List Char := show_nat_aux (n + 1) n []

/-- What `file << i` writes for an `int` `i`. -/
def show_int (i : Int) : List Char :=
  if i < 0 then '-' :: show_nat i.natAbs else show_nat i.natAbs

/-- The text written for one circle, up to and including the closing brace. -/
def record_chars (c : Circle) : List Char :=
  "    \x7b\n".toList ++
  "      \"id\": ".toList ++ show_int c.id ++ ",\n".toList ++
  "      \"x\": ".toList ++ show_int c.x ++ ",\n".toList ++
  "      \"y\": ".toList ++ show_int c.y ++ ",\n".toList ++
  "      \"radius\": ".toList ++ show_int c.radius ++ ",\n".toList ++
  "      \"intensity\": ".toList ++ show_int c.intensity ++ "\n".toList ++
  "    \x7d".toList

/-- The loop of `save_instance_info`: `size` is `circles.size()`, `i` the loop counter and
the list holds `circles[i], circles[i+1], ...`. -/
def records_chars (size : Nat) : Nat → List Circle → List Char
  | _, [] => []
  | i, c :: rest =>
    record_chars c ++ (if i < size - 1 then ",".toList else []) ++ "\n".toList ++
      records_chars size (i + 1) rest

/-- The characters `save_instance_info` writes to the annotation file, in order. -/
def annotation_chars (circles : List Circle) : List Char :=
  "\x7b\n".toList ++
  "  \"num_instances\": ".toList ++ show_nat circles.length ++ ",\n".toList ++
  "  \"circles\": [\n".toList ++
  records_chars circles.length 0 circles ++
  "  ]\n".toList ++
  "\x7d\n".toList

/-- The function `save_instance_info`: the text of the annotation file. -/
def save_instance_info (circles : List Circle) : String :=
  String.mk (annotation_chars circles)

/-! ## A JSON reader (objects, arrays, strings without escapes, integers) -/

/-- JSON values. -/
inductive Json where
  | num (n : Int)
  | str (s : String)
  | arr (elems : List Json)
  | obj (members : List (String × Json))

/-- JSON tokens. -/
inductive Token where
  | lbrace
  | rbrace
  | lbrack
  | rbrack
  | colon
  | comma
  | str (s : String)
  | int (n : Int)
  deriving DecidableEq, Repr

/-- What the lexer is in the middle of. -/
inductive LexMode where
  | idle
  | in_str (acc : List Char)
  | in_num (neg : Bool) (digits : List Char)
  deriving DecidableEq, Repr

/-- Lexer state: the mode and the tokens read so far. -/
structure LexState where
  mode : LexMode
  tokens : List Token
  deriving DecidableEq, Repr

/-- The value of a string of decimal digits. -/
def digits_value (cs : List Char) : Nat :=
  cs.foldl (fun a c => 10 * a + (c.toNat - 48)) 0

/-- The integer a JSON numeral denotes: at least one digit and no superfluous leading
zero. -/
def read_int (neg : Bool) (digits : List Char) : Option Int :=
  match digits with
  | [] => none
  | c :: rest =>
    if c = '0' ∧ rest ≠ [] then none
    else if neg then some (-(digits_value (c :: rest) : Int))
    else some (digits_value (c :: rest) : Int)

/-- One character read outside a string or number: the next mode and the token it
completes, if any. -/
def idle_char (c : Char) : Option (LexMode × List Token) :=
  if c = ' ' ∨ c = '\n' ∨ c = '\t' ∨ c = '\r' then some (.idle, [])
  else if c = '{' then some (.idle, [.lbrace])
  else if c = '}' then some (.idle, [.rbrace])
  else if c = '[' then some (.idle, [.lbrack])
  else if c = ']' then some (.idle, [.rbrack])
  else if c = ':' then some (.idle, [.colon])
  else if c = ',' then some (.idle, [.comma])
  else if c = '"' then some (.in_str [], [])
  else if c = '-' then some (.in_num true [], [])
  else if c.isDigit then some (.in_num false [c], [])
  else none

/-- The lexer step in idle mode, with `tokens` read so far. -/
def lex_idle (tokens : List Token) (c : Char) : Option LexState :=
  (idle_char c).map (fun r => ⟨r.1, tokens ++ r.2⟩)

/-- One step of the lexer. -/
def lex_step (st : LexState) (c : Char) : Option LexState :=
  match st.mode with
  | .idle => lex_idle st.tokens c
  | .in_str acc =>
    if c = '"' then some ⟨.idle, st.tokens ++ [.str (String.mk acc)]⟩
    else if c = '\\' ∨ c.toNat < 32 then none
    else some ⟨.in_str (acc ++ [c]), st.tokens⟩
  | .in_num neg digits =>
    if c.isDigit then some ⟨.in_num neg (digits ++ [c]), st.tokens⟩
    else
      match read_int neg digits with
      | none => none
      | some n => lex_idle (st.tokens ++ [.int n]) c

/-- End of input: a pending number is completed, an open string is an error. -/
def lex_finish (st : LexState) : Option (List Token) :=
  match st.mode with
  | .idle => some st.tokens
  | .in_str _ => none
  | .in_num neg digits =>
    match read_int neg digits with
    | none => none
    | some n => some (st.tokens ++ [.int n])

/-- The lexer. -/
def lex (cs : List Char) : Option (List Token) :=
  (cs.foldlM lex_step ⟨.idle, []⟩).bind lex_finish

/-- A container being read: an array with the elements so far, or an object with the
members so far and the key waiting for its value. -/
inductive Frame where
  | arr (elems : List Json)
  | obj (members : List (String × Json)) (key : Option String)

/-- What the reader expects next. -/
inductive Expect where
  | value
  | value_or_close
  | key
  | key_or_close
  | colon
  | comma_or_close
  | done
  deriving DecidableEq, Repr

/-- Reader state: open containers (innermost first), the expectation, the finished value. -/
structure ParseState where
  stack : List Frame
  expect : Expect
  result : Option Json

/-- A complete value `v` goes into the innermost open container. -/
def deliver (v : Json) : List Frame → Option ParseState
  | [] => some ⟨[], .done, some v⟩
  | .arr elems :: rest => some ⟨.arr (elems ++ [v]) :: rest, .comma_or_close, none⟩
  | .obj members (some k) :: rest =>
    some ⟨.obj (members ++ [(k, v)]) none :: rest, .comma_or_close, none⟩
  | .obj _ none :: _ => none

/-- A token that starts a value. -/
def start_value (stack : List Frame) : Token → Option ParseState
  | .int n => deliver (.num n) stack
  | .str s => deliver (.str s) stack
  | .lbrack => some ⟨.arr [] :: stack, .value_or_close, none⟩
  | .lbrace => some ⟨.obj [] none :: stack, .key_or_close, none⟩
  | _ => none

/-- One step of the reader. -/
def parse_step (st : ParseState) (t : Token) : Option ParseState :=
  match st.expect, t, st.stack with
  | .value, t, stack => start_value stack t
  | .value_or_close, .rbrack, .arr [] :: rest => deliver (.arr []) rest
  | .value_or_close, t, stack => start_value stack t
  | .key, .str k, .obj members none :: rest => some ⟨.obj members (some k) :: rest, .colon, none⟩
  | .key_or_close, .str k, .obj members none :: rest =>
    some ⟨.obj members (some k) :: rest, .colon, none⟩
  | .key_or_close, .rbrace, .obj [] none :: rest => deliver (.obj []) rest
  | .colon, .colon, stack => some ⟨stack, .value, none⟩
  | .comma_or_close, .comma, .arr elems :: rest => some ⟨.arr elems :: rest, .value, none⟩
  | .comma_or_close, .comma, .obj members none :: rest =>
    some ⟨.obj members none :: rest, .key, none⟩
  | .comma_or_close, .rbrack, .arr elems :: rest => deliver (.arr elems) rest
  | .comma_or_close, .rbrace, .obj members none :: rest => deliver (.obj members) rest
  | _, _, _ => none

/-- The value of a token sequence that is exactly one JSON value. -/
def parse_tokens (ts : List Token) : Option Json :=
  (ts.foldlM parse_step ⟨[], .value, none⟩).bind
    (fun st => match st.expect with
      | .done => st.result
      | _ => none)

/-- The JSON value of a text, if the text is well-formed. -/
def parse_json (text : String) : Option Json :=
  (lex text.toList).bind parse_tokens

/-- The record of one circle in the annotation document. -/
def circle_json (c : Circle) : Json :=
  .obj [("id", .num c.id), ("x", .num c.x), ("y", .num c.y), ("radius", .num c.radius),
    ("intensity", .num c.intensity)]

/-- The annotation document of a scene. -/
def annotation_json (circles : List Circle) : Json :=
  .obj [("num_instances", .num (circles.length : Int)),
    ("circles", .arr (circles.map circle_json))]

/-! ## Dataset driver -/

/-- The lexer, started in state `st`, reads `cs` without error and ends in state `st2`. -/
def Lexes (st : LexState) (cs : List Char) (st2 : LexState) : Prop :=
  cs.foldlM lex_step st = some st2

/-- The tokens of one circle record. -/
def record_tokens (c : Circle) : List Token :=
  [.lbrace, .str "id", .colon, .int c.id, .comma, .str "x", .colon, .int c.x, .comma,
    .str "y", .colon, .int c.y, .comma, .str "radius", .colon, .int c.radius, .comma,
    .str "intensity", .colon, .int c.intensity, .rbrace]

/-- The tokens of the records of a scene: commas between records, none after the last. -/
def records_tokens : List Circle → List Token
  | [] => []
  | [c] => record_tokens c
  | c :: d :: rest => record_tokens c ++ [.comma] ++ records_tokens (d :: rest)

/-- The tokens of the annotation document of a scene. -/
def annotation_tokens (circles : List Circle) : List Token :=
  [.lbrace, .str "num_instances", .colon, .int (circles.length : Int), .comma,
    .str "circles", .colon, .lbrack] ++ records_tokens circles ++ [.rbrack, .rbrace]

/-! ## Theorems: scene sampler -/

/-- What the loop guarantees when it returns: `k` more circles, each satisfying `P`, provided
a freshly sampled circle with non-empty placement ranges does. -/
theorem generate_random_circles_loop_spec {σ : Type} (draw : σ → Int → Int → Int × σ)
    (W H rmin rmax : Int) (P : Int → Circle → Prop)
    (hstep : ∀ (gen : σ) (i : Int),
      (draw gen rmin rmax).1 ≤ W - (draw gen rmin rmax).1 →
      (draw gen rmin rmax).1 ≤ H - (draw gen rmin rmax).1 →
      P i (sampled_circle draw W H rmin rmax gen i))
    (k : Nat) (i : Int) (gen : σ) (acc : List Circle) (hi : i = acc.length)
    (hacc : ∀ (j : Nat) (c : Circle), acc[j]? = some c → P j c) (cs : List Circle)
    (h : generate_random_circles_loop draw W H rmin rmax k i gen acc = .ok cs) :
    cs.length = acc.length + k ∧ ∀ (j : Nat) (c : Circle), cs[j]? = some c → P j c := by
  induction k generalizing i gen acc with
  | zero =>
    simp only [generate_random_circles_loop, Outcome.ok.injEq] at h
    subst h
    exact ⟨rfl, hacc⟩
  | succ k ih =>
    simp only [generate_random_circles_loop] at h
    by_cases hr : (draw gen rmin rmax).1 ≤ W - (draw gen rmin rmax).1 ∧
        (draw gen rmin rmax).1 ≤ H - (draw gen rmin rmax).1
    · rw [if_pos hr] at h
      have key := ih (i + 1) _ _ (by simp [hi]) (by
        intro j c hj
        by_cases hlt : j < acc.length
        · rw [List.getElem?_append_left hlt] at hj
          exact hacc j c hj
        · have hge : acc.length ≤ j := Nat.le_of_not_lt hlt
          rw [List.getElem?_append_right hge] at hj
          have hj0 : j - acc.length = 0 := by
            by_contra hne
            have : 1 ≤ j - acc.length := Nat.one_le_iff_ne_zero.mpr hne
            simp [List.getElem?_eq_none, this] at hj
          rw [hj0] at hj
          simp only [List.getElem?_cons_zero, Option.some.injEq] at hj
          subst hj
          have hjeq : (j : Int) = i := by omega
          rw [hjeq]
          exact hstep gen i hr.1 hr.2) h
      refine ⟨?_, key.2⟩
      have := key.1
      simp only [List.length_append, List.length_singleton] at this
      omega
    · rw [if_neg hr] at h
      exact absurd h (by simp)

/-- The loop returns when every sampled radius has non-empty placement ranges. -/
theorem generate_random_circles_loop_returns {σ : Type} (draw : σ → Int → Int → Int × σ)
    (W H rmin rmax : Int)
    (hgood : ∀ gen : σ, (draw gen rmin rmax).1 ≤ W - (draw gen rmin rmax).1 ∧
      (draw gen rmin rmax).1 ≤ H - (draw gen rmin rmax).1)
    (k : Nat) (i : Int) (gen : σ) (acc : List Circle) :
    ∃ cs, generate_random_circles_loop draw W H rmin rmax k i gen acc = .ok cs := by
  induction k generalizing i gen acc with
  | zero => exact ⟨acc, rfl⟩
  | succ k ih =>
    simp only [generate_random_circles_loop]
    rw [if_pos (hgood gen)]
    exact ih _ _ _

theorem sampled_circle_ok {σ : Type} (draw : σ → Int → Int → Int × σ)
    (hdraw : ∀ g lo hi, lo ≤ hi → lo ≤ (draw g lo hi).1 ∧ (draw g lo hi).1 ≤ hi)
    (W H rmin rmax : Int) (hr : rmin ≤ rmax) (gen : σ) (i : Int)
    (hW : (draw gen rmin rmax).1 ≤ W - (draw gen rmin rmax).1)
    (hH : (draw gen rmin rmax).1 ≤ H - (draw gen rmin rmax).1) :
    circle_ok W H rmin rmax i (sampled_circle draw W H rmin rmax gen i) := by
  have h1 := hdraw gen rmin rmax hr
  have h2 := hdraw (draw gen rmin rmax).2 30 150 (by norm_num)
  have h3 := hdraw (draw (draw gen rmin rmax).2 30 150).2 _ _ hW
  have h4 := hdraw (draw (draw (draw gen rmin rmax).2 30 150).2 (draw gen rmin rmax).1
    (W - (draw gen rmin rmax).1)).2 _ _ hH
  exact ⟨rfl, h1.1, h1.2, h2.1, h2.2, h3.1, h3.2, h4.1, h4.2⟩

theorem drawCycle_in_range (g : Nat) (lo hi : Int) (h : lo ≤ hi) :
    lo ≤ (drawCycle g lo hi).1 ∧ (drawCycle g lo hi).1 ≤ hi := by
  have hpos : 0 < hi - lo + 1 := by omega
  have h1 := Int.emod_nonneg (g : Int) (ne_of_gt hpos)
  have h2 := Int.emod_lt_of_pos (g : Int) hpos
  simp only [drawCycle]
  omega

theorem drawEnd_in_range (g : Bool) (lo hi : Int) (h : lo ≤ hi) :
    lo ≤ (drawEnd g lo hi).1 ∧ (drawEnd g lo hi).1 ≤ hi := by
  cases g <;> simp [drawEnd, h]

/-- A disk whose centre keeps the distance `radius ≥ 0` from the borders `0` and `W`, `H`
lies between them. -/
theorem in_disk_within_borders (W H : Int) (c : Circle) (px py : Int) (hr : 0 ≤ c.radius)
    (hx : c.radius ≤ c.x ∧ c.x ≤ W - c.radius) (hy : c.radius ≤ c.y ∧ c.y ≤ H - c.radius)
    (hd : in_disk c px py = true) :
    0 ≤ px ∧ px ≤ W ∧ 0 ≤ py ∧ py ≤ H := by
  simp only [in_disk, decide_eq_true_eq] at hd
  have hx2 : (px - c.x) * (px - c.x) ≤ c.radius * c.radius := by
    nlinarith [mul_self_nonneg (py - c.y)]
  have hy2 : (py - c.y) * (py - c.y) ≤ c.radius * c.radius := by
    nlinarith [mul_self_nonneg (px - c.x)]
  have ax := abs_le_of_sq_le_sq' (by nlinarith : (px - c.x) ^ 2 ≤ c.radius ^ 2) hr
  have ay := abs_le_of_sq_le_sq' (by nlinarith : (py - c.y) ^ 2 ≤ c.radius ^ 2) hr
  refine ⟨?_, ?_, ?_, ?_⟩ <;> omega

/-- C3 (as stated, refuted). With a source that returns the upper end of every range, on a
64×64 image with radius 10, the sampled circle has `x = 64 - 10`; its disk contains the
point `(64, 54)`, which is not a pixel of the image (columns are `0 .. 63`). -/
theorem generate_random_circles_disk_reaches_outside :
    (∀ g lo hi, lo ≤ hi → lo ≤ (drawEnd g lo hi).1 ∧ (drawEnd g lo hi).1 ≤ hi) ∧
    (0 : Int) ≤ 1 ∧ (1 : Int) ≤ 10 ∧ (10 : Int) ≤ 10 ∧ 2 * (10 : Int) ≤ min 64 64 ∧
    generate_random_circles drawEnd true 1 64 64 10 10 =
      .ok [{ id := 0, x := 54, y := 54, radius := 10, intensity := 150,
             color := (150, 150, 150), overlapping := false }] ∧
    in_disk { id := 0, x := 54, y := 54, radius := 10, intensity := 150,
              color := (150, 150, 150), overlapping := false } 64 54 = true ∧
    ¬ ((64 : Int) < 64) :=
  ⟨drawEnd_in_range, by decide, by decide, by decide, by decide, by decide, by decide,
    by decide⟩

/-- C3 (amended). Under a random source whose uniform draws stay inside the requested closed
range, `n ≥ 0` and a configuration with `1 ≤ radius_min ≤ radius_max` and
`2 * radius_max ≤ min img_width img_height`, `generate_random_circles` returns exactly `n`
circles; the `k`-th one has `id = k`, radius in `[radius_min, radius_max]`, intensity in
`[30, 150]`, `radius ≤ x ≤ img_width - radius` and `radius ≤ y ≤ img_height - radius`, so
every point `(px, py)` of its disk has `0 ≤ px ≤ img_width` and `0 ≤ py ≤ img_height`. -/
theorem generate_random_circles_postcondition {σ : Type} (draw : σ → Int → Int → Int × σ)
    (hdraw : ∀ g lo hi, lo ≤ hi → lo ≤ (draw g lo hi).1 ∧ (draw g lo hi).1 ≤ hi)
    (gen : σ) (n img_width img_height radius_min radius_max : Int)
    (hn : 0 ≤ n) (hmin : 1 ≤ radius_min) (hmax : radius_min ≤ radius_max)
    (hfit : 2 * radius_max ≤ min img_width img_height) :
    ∃ circles : List Circle,
      generate_random_circles draw gen n img_width img_height radius_min radius_max
        = .ok circles ∧
      (circles.length : Int) = n ∧
      ∀ (k : Nat) (c : Circle), circles[k]? = some c →
        (c.id = k ∧ radius_min ≤ c.radius ∧ c.radius ≤ radius_max ∧
          30 ≤ c.intensity ∧ c.intensity ≤ 150 ∧
          c.radius ≤ c.x ∧ c.x ≤ img_width - c.radius ∧
          c.radius ≤ c.y ∧ c.y ≤ img_height - c.radius) ∧
        ∀ px py : Int, in_disk c px py = true →
          0 ≤ px ∧ px ≤ img_width ∧ 0 ≤ py ∧ py ≤ img_height := by
  have hgood : ∀ g : σ,
      (draw g radius_min radius_max).1 ≤ img_width - (draw g radius_min radius_max).1 ∧
      (draw g radius_min radius_max).1 ≤ img_height - (draw g radius_min radius_max).1 := by
    intro g
    have h1 := hdraw g radius_min radius_max hmax
    have := min_le_left img_width img_height
    have := min_le_right img_width img_height
    constructor <;> omega
  have hunfold : generate_random_circles draw gen n img_width img_height radius_min radius_max
      = generate_random_circles_loop draw img_width img_height radius_min radius_max
          n.toNat 0 gen [] := by
    unfold generate_random_circles
    rw [if_neg (by omega), if_neg (by omega)]
  obtain ⟨cs, hcs⟩ := generate_random_circles_loop_returns draw img_width img_height
    radius_min radius_max hgood n.toNat 0 gen []
  have key := generate_random_circles_loop_spec draw img_width img_height radius_min
    radius_max (circle_ok img_width img_height radius_min radius_max)
    (fun g i h1 h2 => sampled_circle_ok draw hdraw img_width img_height radius_min
      radius_max hmax g i h1 h2)
    n.toNat 0 gen [] (by simp) (by simp) cs hcs
  refine ⟨cs, hunfold.trans hcs, ?_, ?_⟩
  · have := key.1
    simp only [List.length_nil, Nat.zero_add] at this
    omega
  · intro k c hk
    have hc := key.2 k c hk
    refine ⟨hc, ?_⟩
    intro px py hd
    obtain ⟨_, h1, _, _, _, h5, h6, h7, h8⟩ := hc
    exact in_disk_within_borders img_width img_height c px py (by omega) ⟨h5, h6⟩ ⟨h7, h8⟩ hd

theorem generate_random_circles_postcondition_witness :
    (∀ g lo hi, lo ≤ hi → lo ≤ (drawCycle g lo hi).1 ∧ (drawCycle g lo hi).1 ≤ hi) ∧
    (0 : Int) ≤ 3 ∧ (1 : Int) ≤ 5 ∧ (5 : Int) ≤ 10 ∧ 2 * (10 : Int) ≤ min 64 48 ∧
    ∃ circles : List Circle,
      generate_random_circles drawCycle 7 3 64 48 5 10 = .ok circles ∧
      (circles.length : Int) = 3 ∧
      ∀ (k : Nat) (c : Circle), circles[k]? = some c →
        (c.id = k ∧ 5 ≤ c.radius ∧ c.radius ≤ 10 ∧ 30 ≤ c.intensity ∧ c.intensity ≤ 150 ∧
          c.radius ≤ c.x ∧ c.x ≤ 64 - c.radius ∧ c.radius ≤ c.y ∧ c.y ≤ 48 - c.radius) ∧
        ∀ px py : Int, in_disk c px py = true → 0 ≤ px ∧ px ≤ 64 ∧ 0 ≤ py ∧ py ≤ 48 :=
  ⟨drawCycle_in_range, by decide, by decide, by decide, by decide,
    generate_random_circles_postcondition drawCycle drawCycle_in_range 7 3 64 48 5 10
      (by decide) (by decide) (by decide) (by decide)⟩

/-! ## Theorems: instance mask -/

theorem saturate_u16_of_range (v : Int) (h0 : 0 ≤ v) (h1 : v ≤ 65535) :
    ((saturate_u16 v : Nat) : Int) = v := by
  unfold saturate_u16
  rw [if_neg (by omega), if_neg (by omega)]
  exact Int.toNat_of_nonneg h0

theorem saturate_u16_le (v : Int) : saturate_u16 v ≤ 65535 := by
  unfold saturate_u16
  split_ifs <;> omega

theorem mask_fold_rows_cols (cs : List Circle) (m : Mat Nat) :
    (cs.foldl (fun mask circle => cv_circle mask circle.x circle.y circle.radius
        (saturate_u16 (circle.id + 1))) m).rows = m.rows ∧
    (cs.foldl (fun mask circle => cv_circle mask circle.x circle.y circle.radius
        (saturate_u16 (circle.id + 1))) m).cols = m.cols := by
  induction cs generalizing m with
  | nil => exact ⟨rfl, rfl⟩
  | cons c cs ih =>
    simp only [List.foldl_cons]
    have h := ih (cv_circle m c.x c.y c.radius (saturate_u16 (c.id + 1)))
    exact ⟨h.1, h.2⟩

/-- The value the drawing loop leaves at an in-range pixel, whatever the starting image. -/
theorem mask_fold_at (cs : List Circle) (m : Mat Nat) (x y : Int)
    (hy : 0 ≤ y ∧ y < m.rows) (hx : 0 ≤ x ∧ x < m.cols) :
    (cs.foldl (fun mask circle => cv_circle mask circle.x circle.y circle.radius
        (saturate_u16 (circle.id + 1))) m).at_ y x =
      match last_covering cs x y with
      | some c => saturate_u16 (c.id + 1)
      | none => m.at_ y x := by
  induction cs generalizing m with
  | nil => simp [last_covering]
  | cons c cs ih =>
    simp only [List.foldl_cons]
    rw [ih (cv_circle m c.x c.y c.radius (saturate_u16 (c.id + 1))) hy hx]
    simp only [last_covering]
    cases hl : last_covering cs x y with
    | some d => rfl
    | none =>
      simp only [in_disk]
      by_cases hd : (x - c.x) * (x - c.x) + (y - c.y) * (y - c.y) ≤ c.radius * c.radius
      · simp [hd, cv_circle, Mat.at_, hy.1, hy.2, hx.1, hx.2]
      · simp [hd, cv_circle, Mat.at_]

theorem last_covering_mem (cs : List Circle) (x y : Int) (c : Circle)
    (h : last_covering cs x y = some c) : c ∈ cs := by
  induction cs with
  | nil => simp [last_covering] at h
  | cons d cs ih =>
    simp only [last_covering] at h
    cases hl : last_covering cs x y with
    | some e =>
      rw [hl] at h
      simp only [Option.some.injEq] at h
      subst h
      exact List.mem_cons_of_mem _ (ih hl)
    | none =>
      rw [hl] at h
      by_cases hd : in_disk d x y = true
      · simp [hd] at h
        subst h
        exact List.mem_cons_self _ _
      · simp [hd] at h

/-- C1 (as stated, refuted). A scene whose single circle has `id = 65535` covers pixel
`(0, 0)` of a 1×1 mask; the "later wins" label there is `65536`, but the 16-bit mask
holds `65535`. -/
theorem generate_instance_mask_saturates :
    (((generate_instance_mask
        [{ id := 65535, x := 0, y := 0, radius := 1, intensity := 30,
           color := (30, 30, 30), overlapping := false }] 1 1).at_ 0 0 : Nat) : Int) ≠
      later_wins_label
        [{ id := 65535, x := 0, y := 0, radius := 1, intensity := 30,
           color := (30, 30, 30), overlapping := false }] 0 0 := by
  decide

/-- C1 (amended). For every scene whose labels `id + 1` fit the 16-bit mask
(`0 ≤ id + 1 ≤ 65535`) and whose radii are not negative, every image size and every pixel
inside the image, the mask value is `id + 1` of the last circle in scene order whose disk
contains the pixel, and `0` when no disk contains it. Consequently, for a scene whose ids
are `0 .. N-1` with `N ≤ 65535`, every non-zero mask value lies in `{1, ..., N}`. -/
theorem generate_instance_mask_later_wins (circles : List Circle) (W H x y : Int)
    (hids : ∀ c ∈ circles, 0 ≤ c.id + 1 ∧ c.id + 1 ≤ 65535)
    (hrad : ∀ c ∈ circles, 0 ≤ c.radius)
    (hW : 0 < W) (hH : 0 < H) (hx : 0 ≤ x ∧ x < W) (hy : 0 ≤ y ∧ y < H) :
    (((generate_instance_mask circles W H).at_ y x : Nat) : Int) =
        later_wins_label circles x y ∧
    ∀ N : Nat, N ≤ 65535 → circles.map Circle.id = (List.range N).map Int.ofNat →
      (generate_instance_mask circles W H).at_ y x ≠ 0 →
      1 ≤ (generate_instance_mask circles W H).at_ y x ∧
        (generate_instance_mask circles W H).at_ y x ≤ N := by
  have _ := hW
  have _ := hH
  have _ := hrad
  have hval : (((generate_instance_mask circles W H).at_ y x : Nat) : Int) =
      later_wins_label circles x y := by
    unfold generate_instance_mask later_wins_label
    rw [mask_fold_at circles (Mat.zeros H W) x y hy hx]
    cases hl : last_covering circles x y with
    | none => simp [Mat.zeros, Mat.at_]
    | some c =>
      have hc := hids c (last_covering_mem circles x y c hl)
      exact saturate_u16_of_range _ hc.1 hc.2
  refine ⟨hval, ?_⟩
  intro N _ hmap hne
  refine ⟨Nat.one_le_iff_ne_zero.mpr hne, ?_⟩
  unfold later_wins_label at hval
  cases hl : last_covering circles x y with
  | none =>
    rw [hl] at hval
    simp only at hval
    exact absurd (by exact_mod_cast hval) hne
  | some c =>
    rw [hl] at hval
    simp only at hval
    have hmem : c.id ∈ circles.map Circle.id :=
      List.mem_map_of_mem _ (last_covering_mem circles x y c hl)
    rw [hmap] at hmem
    obtain ⟨k, hk, hkc⟩ := List.mem_map.mp hmem
    have hk2 : k < N := List.mem_range.mp hk
    have hkc2 : (k : Int) = c.id := hkc
    omega

theorem generate_instance_mask_later_wins_witness :
    (∀ c ∈ ([{ id := 0, x := 2, y := 2, radius := 2, intensity := 30,
               color := (30, 30, 30), overlapping := false },
             { id := 1, x := 3, y := 2, radius := 1, intensity := 40,
               color := (40, 40, 40), overlapping := false }] : List Circle),
        0 ≤ c.id + 1 ∧ c.id + 1 ≤ 65535) ∧
    (∀ c ∈ ([{ id := 0, x := 2, y := 2, radius := 2, intensity := 30,
               color := (30, 30, 30), overlapping := false },
             { id := 1, x := 3, y := 2, radius := 1, intensity := 40,
               color := (40, 40, 40), overlapping := false }] : List Circle),
        0 ≤ c.radius) ∧
    (0 : Int) < 6 ∧ (0 : Int) < 5 ∧ ((0 : Int) ≤ 3 ∧ (3 : Int) < 6) ∧
    ((0 : Int) ≤ 2 ∧ (2 : Int) < 5) ∧
    (((generate_instance_mask
        [{ id := 0, x := 2, y := 2, radius := 2, intensity := 30,
           color := (30, 30, 30), overlapping := false },
         { id := 1, x := 3, y := 2, radius := 1, intensity := 40,
           color := (40, 40, 40), overlapping := false }] 6 5).at_ 2 3 : Nat) : Int) = 2 :=
  ⟨by decide, by decide, by decide, by decide, by decide, by decide,
    (generate_instance_mask_later_wins
      [{ id := 0, x := 2, y := 2, radius := 2, intensity := 30,
         color := (30, 30, 30), overlapping := false },
       { id := 1, x := 3, y := 2, radius := 1, intensity := 40,
         color := (40, 40, 40), overlapping := false }] 6 5 3 2
      (by decide) (by decide) (by decide) (by decide) (by decide) (by decide)).1.trans
      (by decide)⟩

/-! ## Theorems: floating point and split assigner -/


theorem log2_fuel_spec (fuel n : Nat) (hn : n ≤ fuel) (h1 : 1 ≤ n) :
    2 ^ log2_fuel fuel n ≤ n ∧ n < 2 ^ (log2_fuel fuel n + 1) := by
  induction fuel generalizing n with
  | zero => omega
  | succ fuel ih =>
    simp only [log2_fuel]
    by_cases h2 : n < 2
    · rw [if_pos h2]
      have : n = 1 := by omega
      subst this
      simp
    · rw [if_neg h2]
      have hih := ih (n / 2) (by omega) (by omega)
      rw [pow_succ, pow_succ]
      rw [pow_succ] at hih
      constructor <;> omega

theorem nat_log2_spec (n : Nat) (h1 : 1 ≤ n) :
    2 ^ nat_log2 n ≤ n ∧ n < 2 ^ (nat_log2 n + 1) :=
  log2_fuel_spec n n (le_refl n) h1

theorem ilog2_spec (q : ℚ) (hq : 0 < q) :
    (2 : ℚ) ^ ilog2 q ≤ q ∧ q < (2 : ℚ) ^ (ilog2 q + 1) := by
  have hnum : 0 < q.num := Rat.num_pos.mpr hq
  have hden : 0 < q.den := q.den_pos
  have ha := nat_log2_spec q.num.toNat (by omega)
  have hb := nat_log2_spec q.den (by omega)
  have hqeq : q = (q.num.toNat : ℚ) / (q.den : ℚ) := by
    have h2 : (q.num : ℚ) = ((q.num.toNat : ℕ) : ℚ) := by
      have h3 : ((q.num.toNat : ℕ) : ℤ) = q.num := Int.toNat_of_nonneg (le_of_lt hnum)
      rw [← Int.cast_natCast, h3]
    rw [← h2]
    exact (Rat.num_div_den q).symm
  set a := q.num.toNat with ha_def
  set b := q.den with hb_def
  set la := nat_log2 a with hla
  set lb := nat_log2 b with hlb
  have hbpos : (0 : ℚ) < (b : ℚ) := by exact_mod_cast hden
  have ha1 : ((2 : ℚ) ^ la) ≤ (a : ℚ) := by exact_mod_cast ha.1
  have ha2 : (a : ℚ) < (2 : ℚ) ^ (la + 1) := by exact_mod_cast ha.2
  have hb1 : ((2 : ℚ) ^ lb) ≤ (b : ℚ) := by exact_mod_cast hb.1
  have hb2 : (b : ℚ) < (2 : ℚ) ^ (lb + 1) := by exact_mod_cast hb.2
  have h2pos : ∀ k : ℤ, (0 : ℚ) < (2 : ℚ) ^ k := fun k => zpow_pos (by norm_num) k
  have hsub : ∀ (m n : ℕ), (2 : ℚ) ^ ((m : ℤ) - (n : ℤ)) = (2 : ℚ) ^ m / (2 : ℚ) ^ n := by
    intro m n
    rw [zpow_sub₀ (by norm_num : (2 : ℚ) ≠ 0)]
    simp
  unfold ilog2
  by_cases hc : (2 : ℚ) ^ ((la : ℤ) - (lb : ℤ)) ≤ q
  · rw [if_pos hc]
    refine ⟨hc, ?_⟩
    have h3 : (2 : ℚ) ^ ((la : ℤ) - (lb : ℤ) + 1) = (2 : ℚ) ^ (la + 1) / (2 : ℚ) ^ lb := by
      have := hsub (la + 1) lb
      rw [← this]
      congr 1
      push_cast
      ring
    rw [h3, hqeq, div_lt_div_iff₀ hbpos (pow_pos (by norm_num) lb)]
    calc (a : ℚ) * 2 ^ lb < 2 ^ (la + 1) * 2 ^ lb := by
          apply mul_lt_mul_of_pos_right ha2 (pow_pos (by norm_num) lb)
      _ ≤ 2 ^ (la + 1) * (b : ℚ) := by
          apply mul_le_mul_of_nonneg_left hb1 (le_of_lt (pow_pos (by norm_num) _))
  · rw [if_neg hc]
    push_neg at hc
    constructor
    · have h3 : (2 : ℚ) ^ ((la : ℤ) - (lb : ℤ) - 1) = (2 : ℚ) ^ la / (2 : ℚ) ^ (lb + 1) := by
        have := hsub la (lb + 1)
        rw [← this]
        congr 1
        push_cast
        ring
      rw [h3]
      conv_rhs => rw [hqeq]
      rw [div_le_div_iff₀ (pow_pos (by norm_num) (lb + 1)) hbpos]
      calc (2 : ℚ) ^ la * (b : ℚ) ≤ (a : ℚ) * (b : ℚ) := by
            apply mul_le_mul_of_nonneg_right ha1 (le_of_lt hbpos)
        _ ≤ (a : ℚ) * 2 ^ (lb + 1) := by
            apply mul_le_mul_of_nonneg_left (le_of_lt hb2)
            exact_mod_cast Nat.zero_le a
    · have : (la : ℤ) - (lb : ℤ) - 1 + 1 = (la : ℤ) - (lb : ℤ) := by ring
      rw [this]
      exact hc

theorem ilog2_mono (q1 q2 : ℚ) (h1 : 0 < q1) (h12 : q1 ≤ q2) : ilog2 q1 ≤ ilog2 q2 := by
  have s1 := ilog2_spec q1 h1
  have s2 := ilog2_spec q2 (lt_of_lt_of_le h1 h12)
  have hlt : (2 : ℚ) ^ ilog2 q1 < (2 : ℚ) ^ (ilog2 q2 + 1) :=
    lt_of_le_of_lt s1.1 (lt_of_le_of_lt h12 s2.2)
  have := (zpow_lt_zpow_iff_right₀ (by norm_num : (1 : ℚ) < 2)).mp hlt
  omega


theorem round_half_even_bounds (x : ℚ) :
    ⌊x⌋ ≤ round_half_even x ∧ round_half_even x ≤ ⌊x⌋ + 1 := by
  unfold round_half_even
  split_ifs <;> constructor <;> omega

theorem round_half_even_intCast (n : ℤ) : round_half_even (n : ℚ) = n := by
  unfold round_half_even
  simp

theorem round_half_even_mono (x y : ℚ) (h : x ≤ y) :
    round_half_even x ≤ round_half_even y := by
  have hf : ⌊x⌋ ≤ ⌊y⌋ := Int.floor_mono h
  rcases lt_or_eq_of_le hf with hlt | heq
  · have h1 := (round_half_even_bounds x).2
    have h2 := (round_half_even_bounds y).1
    omega
  · unfold round_half_even
    rw [← heq]
    split_ifs <;> first | omega | (exfalso; linarith)

theorem round_half_even_le_of_le (x : ℚ) (n : ℤ) (h : x ≤ n) : round_half_even x ≤ n := by
  have := round_half_even_mono x n h
  rwa [round_half_even_intCast] at this

theorem round_half_even_ge_of_ge (x : ℚ) (n : ℤ) (h : (n : ℚ) ≤ x) : n ≤ round_half_even x := by
  have := round_half_even_mono n x h
  rwa [round_half_even_intCast] at this

/-- A positive number rounds into the closed binade that contains it. -/
theorem fp_round_bounds (p : Nat) (hp : 1 ≤ p) (q : ℚ) (hq : 0 < q) :
    (2 : ℚ) ^ ilog2 q ≤ fp_round p q ∧ fp_round p q ≤ (2 : ℚ) ^ (ilog2 q + 1) := by
  have hs := ilog2_spec q hq
  have habs : |q| = q := abs_of_pos hq
  have hu : (0 : ℚ) < 2 ^ (ilog2 q - ((p : ℤ) - 1)) := zpow_pos (by norm_num) _
  have h2 : (2 : ℚ) ≠ 0 := by norm_num
  unfold fp_round
  rw [if_neg (ne_of_gt hq), habs]
  obtain ⟨k, hk⟩ : ∃ k : ℕ, p = k + 1 := ⟨p - 1, by omega⟩
  have hpk : ((p : ℤ) - 1) = (k : ℤ) := by omega
  rw [hpk]
  rw [hpk] at hu
  have hlow : (((2 ^ k : ℕ) : ℤ) : ℚ) ≤ q / 2 ^ (ilog2 q - (k : ℤ)) := by
    rw [le_div_iff₀ hu]
    have : ((((2 ^ k : ℕ) : ℤ) : ℚ)) * 2 ^ (ilog2 q - (k : ℤ)) = 2 ^ ilog2 q := by
      push_cast
      rw [← zpow_natCast, ← zpow_add₀ h2]
      congr 1
      ring
    rw [this]
    exact hs.1
  have hhigh : q / 2 ^ (ilog2 q - (k : ℤ)) ≤ (((2 ^ (k + 1) : ℕ) : ℤ) : ℚ) := by
    rw [div_le_iff₀ hu]
    have : ((((2 ^ (k + 1) : ℕ) : ℤ) : ℚ)) * 2 ^ (ilog2 q - (k : ℤ)) = 2 ^ (ilog2 q + 1) := by
      push_cast
      rw [← zpow_natCast, ← zpow_add₀ h2]
      congr 1
      push_cast
      ring
    rw [this]
    exact le_of_lt hs.2
  have r1 := round_half_even_ge_of_ge _ _ hlow
  have r2 := round_half_even_le_of_le _ _ hhigh
  constructor
  · have : (2 : ℚ) ^ ilog2 q = ((((2 ^ k : ℕ) : ℤ) : ℚ)) * 2 ^ (ilog2 q - (k : ℤ)) := by
      push_cast
      rw [← zpow_natCast, ← zpow_add₀ h2]
      congr 1
      ring
    rw [this]
    apply mul_le_mul_of_nonneg_right _ (le_of_lt hu)
    exact_mod_cast r1
  · have : (2 : ℚ) ^ (ilog2 q + 1) = ((((2 ^ (k + 1) : ℕ) : ℤ) : ℚ)) * 2 ^ (ilog2 q - (k : ℤ)) := by
      push_cast
      rw [← zpow_natCast, ← zpow_add₀ h2]
      congr 1
      push_cast
      ring
    rw [this]
    apply mul_le_mul_of_nonneg_right _ (le_of_lt hu)
    exact_mod_cast r2

theorem fp_round_zero (p : Nat) : fp_round p 0 = 0 := by
  simp [fp_round]

theorem fp_round_pos (p : Nat) (hp : 1 ≤ p) (q : ℚ) (hq : 0 < q) : 0 < fp_round p q :=
  lt_of_lt_of_le (zpow_pos (by norm_num) _) (fp_round_bounds p hp q hq).1

/-- Rounding is monotone on the non-negative rationals. -/
theorem fp_round_mono (p : Nat) (hp : 1 ≤ p) (q1 q2 : ℚ) (h1 : 0 ≤ q1) (h12 : q1 ≤ q2) :
    fp_round p q1 ≤ fp_round p q2 := by
  rcases eq_or_lt_of_le h1 with h0 | hpos
  · rw [← h0, fp_round_zero]
    rcases eq_or_lt_of_le (le_trans h1 h12) with h0b | hpos2
    · rw [← h0b, fp_round_zero]
    · exact le_of_lt (fp_round_pos p hp q2 hpos2)
  · have hpos2 : 0 < q2 := lt_of_lt_of_le hpos h12
    have he := ilog2_mono q1 q2 hpos h12
    rcases lt_or_eq_of_le he with hlt | heq
    · have b1 := (fp_round_bounds p hp q1 hpos).2
      have b2 := (fp_round_bounds p hp q2 hpos2).1
      have : (2 : ℚ) ^ (ilog2 q1 + 1) ≤ (2 : ℚ) ^ ilog2 q2 :=
        zpow_le_zpow_right₀ (by norm_num) (by omega)
      exact le_trans b1 (le_trans this b2)
    · unfold fp_round
      rw [if_neg (ne_of_gt hpos), if_neg (ne_of_gt hpos2), abs_of_pos hpos, abs_of_pos hpos2,
        heq]
      have hu : (0 : ℚ) < 2 ^ (ilog2 q2 - ((p : ℤ) - 1)) := zpow_pos (by norm_num) _
      apply mul_le_mul_of_nonneg_right _ (le_of_lt hu)
      have := round_half_even_mono (q1 / 2 ^ (ilog2 q2 - ((p : ℤ) - 1)))
        (q2 / 2 ^ (ilog2 q2 - ((p : ℤ) - 1))) (div_le_div_of_nonneg_right h12 (le_of_lt hu))
      exact_mod_cast this


theorem isqrt_iter_eq (n fuel guess : Nat) (h : guess ≤ fuel) :
    isqrt_iter n fuel guess = Nat.sqrt.iter n guess := by
  induction fuel generalizing guess with
  | zero =>
    have hg : guess = 0 := by omega
    subst hg
    rw [Nat.sqrt.iter]
    simp [isqrt_iter]
  | succ fuel ih =>
    rw [Nat.sqrt.iter]
    simp only [isqrt_iter]
    by_cases hlt : (guess + n / guess) / 2 < guess
    · rw [if_pos hlt, dif_pos hlt]
      exact ih _ (by omega)
    · rw [if_neg hlt, dif_neg hlt]

theorem isqrt_eq_sqrt (n : Nat) : isqrt n = Nat.sqrt n := by
  unfold isqrt Nat.sqrt
  split_ifs
  · rfl
  · exact isqrt_iter_eq n (n / 2) (n / 2) (le_refl _)

/-- The integer square root is the floor of the square root. -/
theorem isqrt_spec (n : Nat) : isqrt n * isqrt n ≤ n ∧ n < (isqrt n + 1) * (isqrt n + 1) := by
  rw [isqrt_eq_sqrt]
  exact ⟨Nat.sqrt_le n, Nat.lt_succ_sqrt n⟩

/-- The ratio `static_cast<float>(idx) / total` of `get_split_name`. -/
theorem split_ratio_mono (total i j : Int) (ht : 0 < total) (hi : 0 ≤ i) (hij : i ≤ j) :
    f32_div (f32_round (i : ℚ)) (f32_round (total : ℚ)) ≤
      f32_div (f32_round (j : ℚ)) (f32_round (total : ℚ)) := by
  unfold f32_div f32_round
  have hi0 : (0 : ℚ) ≤ (i : ℚ) := by exact_mod_cast hi
  have hijq : (i : ℚ) ≤ (j : ℚ) := by exact_mod_cast hij
  have htq : (0 : ℚ) < (total : ℚ) := by exact_mod_cast ht
  have ht2 := fp_round_pos 24 (by norm_num) _ htq
  have hm := fp_round_mono 24 (by norm_num) _ _ hi0 hijq
  have h0 : 0 ≤ fp_round 24 (i : ℚ) := by
    have := fp_round_mono 24 (by norm_num) 0 _ (le_refl 0) hi0
    rwa [fp_round_zero] at this
  apply fp_round_mono 24 (by norm_num)
  · exact div_nonneg h0 (le_of_lt ht2)
  · exact div_le_div_of_nonneg_right hm (le_of_lt ht2)

theorem Float32.fin_lt_of_le (r1 r2 : ℚ) (t : Float32) (h : r1 ≤ r2)
    (h2 : Float32.fin_lt r2 t = true) : Float32.fin_lt r1 t = true := by
  cases t with
  | fin q =>
    simp only [Float32.fin_lt, decide_eq_true_eq] at h2 ⊢
    exact lt_of_le_of_lt h h2
  | pinf => rfl
  | ninf => exact h2
  | nan => exact h2

theorem split_rank_get_split_name (idx total : Int) (train_split val_split : Float32) :
    split_rank (get_split_name idx total train_split val_split) =
      if Float32.fin_lt (f32_div (f32_round (idx : ℚ)) (f32_round (total : ℚ))) train_split
      then 0
      else if Float32.fin_lt (f32_div (f32_round (idx : ℚ)) (f32_round (total : ℚ)))
          (train_split.add val_split) then 1
      else 2 := by
  unfold get_split_name
  simp only []
  split_ifs <;> decide

theorem get_split_name_cases (idx total : Int) (train_split val_split : Float32) :
    (get_split_name idx total train_split val_split = "train" ∧
      split_rank (get_split_name idx total train_split val_split) = 0) ∨
    (get_split_name idx total train_split val_split = "val" ∧
      split_rank (get_split_name idx total train_split val_split) = 1) ∨
    (get_split_name idx total train_split val_split = "test" ∧
      split_rank (get_split_name idx total train_split val_split) = 2) := by
  unfold get_split_name
  simp only []
  split_ifs
  · exact Or.inl ⟨rfl, by decide⟩
  · exact Or.inr (Or.inl ⟨rfl, by decide⟩)
  · exact Or.inr (Or.inr ⟨rfl, by decide⟩)

theorem split_rank_mono (total i j : Int) (train_split val_split : Float32)
    (ht : 0 < total) (hi : 0 ≤ i) (hij : i ≤ j) :
    split_rank (get_split_name i total train_split val_split) ≤
      split_rank (get_split_name j total train_split val_split) := by
  have hr := split_ratio_mono total i j ht hi hij
  have m1 := Float32.fin_lt_of_le _ _ train_split hr
  have m2 := Float32.fin_lt_of_le _ _ (train_split.add val_split) hr
  rw [split_rank_get_split_name, split_rank_get_split_name]
  split_ifs with a b c d e f g
  all_goals first
    | omega
    | exact absurd (m1 ‹_›) ‹_›
    | exact absurd (m2 ‹_›) ‹_›

theorem get_split_name_rank_iff (idx total : Int) (train_split val_split : Float32) :
    (get_split_name idx total train_split val_split = "train" ↔
      split_rank (get_split_name idx total train_split val_split) = 0) ∧
    (get_split_name idx total train_split val_split = "val" ↔
      split_rank (get_split_name idx total train_split val_split) = 1) ∧
    (get_split_name idx total train_split val_split = "test" ↔
      split_rank (get_split_name idx total train_split val_split) = 2) := by
  rcases get_split_name_cases idx total train_split val_split with h | h | h <;>
    rw [h.1] <;> decide

/-- C5. For `total > 0`, any thresholds (finite, infinite or NaN) and indices `0 ≤ i < j`,
the split of `i` is not after the split of `j` in the order `train < val < test`; hence
`train` is closed downwards (a prefix), `test` is closed upwards (the rest) and `val` is a
contiguous block between. -/
theorem get_split_name_monotone (total : Int) (train_split val_split : Float32) (i j : Int)
    (ht : 0 < total) (hi : 0 ≤ i) (hij : i < j) :
    split_rank (get_split_name i total train_split val_split) ≤
        split_rank (get_split_name j total train_split val_split) ∧
    (get_split_name j total train_split val_split = "train" →
        get_split_name i total train_split val_split = "train") ∧
    (get_split_name i total train_split val_split = "test" →
        get_split_name j total train_split val_split = "test") ∧
    (∀ k : Int, i ≤ k → k ≤ j →
        get_split_name i total train_split val_split = "val" →
        get_split_name j total train_split val_split = "val" →
        get_split_name k total train_split val_split = "val") := by
  have hm := split_rank_mono total i j train_split val_split ht hi (le_of_lt hij)
  have ri := get_split_name_rank_iff i total train_split val_split
  have rj := get_split_name_rank_iff j total train_split val_split
  refine ⟨hm, ?_, ?_, ?_⟩
  · intro h
    have := rj.1.mp h
    exact ri.1.mpr (by omega)
  · intro h
    have := ri.2.2.mp h
    rcases get_split_name_cases j total train_split val_split with c | c | c
    · omega
    · omega
    · exact c.1
  · intro k hik hkj hvi hvj
    have rk := get_split_name_rank_iff k total train_split val_split
    have h1 := split_rank_mono total i k train_split val_split ht hi hik
    have h2 := split_rank_mono total k j train_split val_split ht (le_trans hi hik) hkj
    have := ri.2.1.mp hvi
    have := rj.2.1.mp hvj
    exact rk.2.1.mpr (by omega)

theorem get_split_name_monotone_witness :
    (0 : Int) < 100 ∧ (0 : Int) ≤ 69 ∧ (69 : Int) < 70 ∧
    split_rank (get_split_name 69 100 train_split_default val_split_default) ≤
      split_rank (get_split_name 70 100 train_split_default val_split_default) :=
  ⟨by decide, by decide, by decide,
    (get_split_name_monotone 100 train_split_default val_split_default 69 70
      (by decide) (by decide) (by decide)).1⟩

theorem get_split_name_table_100 :
    ∀ k ∈ List.range 100,
      get_split_name (k : Int) 100 train_split_default val_split_default =
        if k < 70 then "train" else if k < 85 then "val" else "test" := by
  decide!

/-- C4. With `total = 100` and the thresholds `0.7` and `0.15` stored as `float`,
`get_split_name` returns "train" exactly for `0 ≤ i < 70`, "val" exactly for
`70 ≤ i < 85` and "test" exactly for `85 ≤ i < 100`. -/
theorem get_split_name_partition_100 (i : Int) (h0 : 0 ≤ i) (h1 : i < 100) :
    (get_split_name i 100 train_split_default val_split_default = "train" ↔ i < 70) ∧
    (get_split_name i 100 train_split_default val_split_default = "val" ↔
      70 ≤ i ∧ i < 85) ∧
    (get_split_name i 100 train_split_default val_split_default = "test" ↔ 85 ≤ i) := by
  obtain ⟨k, rfl⟩ : ∃ k : Nat, i = (k : Int) := ⟨i.toNat, (Int.toNat_of_nonneg h0).symm⟩
  have hk : k < 100 := by omega
  rw [get_split_name_table_100 k (List.mem_range.mpr hk)]
  by_cases a : k < 70
  · rw [if_pos a]
    refine ⟨⟨fun _ => by omega, fun _ => rfl⟩, ⟨fun h => absurd h (by decide), fun h => by omega⟩,
      ⟨fun h => absurd h (by decide), fun h => by omega⟩⟩
  · rw [if_neg a]
    by_cases b : k < 85
    · rw [if_pos b]
      refine ⟨⟨fun h => absurd h (by decide), fun h => by omega⟩,
        ⟨fun _ => by omega, fun _ => rfl⟩, ⟨fun h => absurd h (by decide), fun h => by omega⟩⟩
    · rw [if_neg b]
      refine ⟨⟨fun h => absurd h (by decide), fun h => by omega⟩,
        ⟨fun h => absurd h (by decide), fun h => by omega⟩, ⟨fun _ => by omega, fun _ => rfl⟩⟩

theorem get_split_name_partition_100_witness :
    (0 : Int) ≤ 70 ∧ (70 : Int) < 100 ∧
    get_split_name 70 100 train_split_default val_split_default = "val" :=
  ⟨by decide, by decide,
    (get_split_name_partition_100 70 (by decide) (by decide)).2.1.mpr ⟨by decide, by decide⟩⟩


/-! ## Theorems: image renderer -/


/-- A loop over `0 .. n-1` whose iterations each leave the observed quantity `get` alone,
except for at most one iteration, which applies `g` to it. -/
theorem foldl_range_local {σ β : Type} (get : σ → β) (step : Nat → σ → σ) (P : Nat → Prop)
    (g : β → β)
    (hyes : ∀ k s, P k → get (step k s) = g (get s))
    (hno : ∀ k s, ¬ P k → get (step k s) = get s)
    (huniq : ∀ j k, P j → P k → j = k) (n : Nat) (s : σ) :
    ((∃ k, k < n ∧ P k) → get ((List.range n).foldl (fun st k => step k st) s) = g (get s)) ∧
    ((¬ ∃ k, k < n ∧ P k) → get ((List.range n).foldl (fun st k => step k st) s) = get s) := by
  induction n with
  | zero =>
    refine ⟨?_, fun _ => rfl⟩
    rintro ⟨k, hk, _⟩
    omega
  | succ n ih =>
    rw [List.range_succ, List.foldl_append]
    simp only [List.foldl_cons, List.foldl_nil]
    constructor
    · rintro ⟨k, hk, hP⟩
      by_cases hkn : k < n
      · have hPn : ¬ P n := fun h => by
          have := huniq k n hP h
          omega
        rw [hno n _ hPn]
        exact ih.1 ⟨k, hkn, hP⟩
      · have hkeq : k = n := by omega
        subst hkeq
        rw [hyes k _ hP]
        congr 1
        apply ih.2
        rintro ⟨j, hj, hPj⟩
        have := huniq j k hPj hP
        omega
    · intro hne
      have hPn : ¬ P n := fun h => hne ⟨n, by omega, h⟩
      rw [hno n _ hPn]
      apply ih.2
      rintro ⟨j, hj, hPj⟩
      exact hne ⟨j, by omega, hPj⟩

/-- The same for a `for (int i = lo; i < hi; i++)` loop. -/
theorem forRange_local {σ β : Type} (get : σ → β) (lo hi : Int) (body : Int → σ → σ)
    (P : Int → Prop) (g : β → β)
    (hyes : ∀ i s, P i → get (body i s) = g (get s))
    (hno : ∀ i s, ¬ P i → get (body i s) = get s)
    (huniq : ∀ i j, P i → P j → i = j) (s : σ) :
    ((∃ i, lo ≤ i ∧ i < hi ∧ P i) → get (forRange lo hi body s) = g (get s)) ∧
    ((¬ ∃ i, lo ≤ i ∧ i < hi ∧ P i) → get (forRange lo hi body s) = get s) := by
  have h := foldl_range_local get (fun k st => body (lo + (k : Int)) st)
    (fun k => P (lo + (k : Int))) g (fun k s hk => hyes _ s hk) (fun k s hk => hno _ s hk)
    (fun j k hj hk => by
      have := huniq _ _ hj hk
      omega) (hi - lo).toNat s
  unfold forRange
  constructor
  · rintro ⟨i, h1, h2, hP⟩
    apply h.1
    refine ⟨(i - lo).toNat, by omega, ?_⟩
    have : lo + ((i - lo).toNat : Int) = i := by omega
    rw [this]
    exact hP
  · intro hne
    apply h.2
    rintro ⟨k, hk, hP⟩
    exact hne ⟨lo + (k : Int), by omega, by omega, hP⟩

/-- What one pass of the compositing loop does to the value `v` at pixel `(y, x)`. -/
theorem composite_layer_at (W H : Int) (image layer : Mat ℚ) (y x : Int) :
    (composite_layer W H image layer).at_ y x =
      composite_pixel W H layer y x (image.at_ y x) := by
  -- the inner loop over `x`, on row `r`
  have inner : ∀ (r : Int) (img : Mat ℚ),
      ((r = y ∧ 0 ≤ x ∧ x < W) →
        (forRange 0 W (fun x1 img1 =>
          if 0 < layer.at_ r x1 then img1.set r x1 (fmin (img1.at_ r x1) (layer.at_ r x1))
          else img1) img).at_ y x =
          (if 0 < layer.at_ y x then fmin (img.at_ y x) (layer.at_ y x) else img.at_ y x)) ∧
      ((¬ (r = y ∧ 0 ≤ x ∧ x < W)) →
        (forRange 0 W (fun x1 img1 =>
          if 0 < layer.at_ r x1 then img1.set r x1 (fmin (img1.at_ r x1) (layer.at_ r x1))
          else img1) img).at_ y x = img.at_ y x) := by
    intro r img
    have h := forRange_local (fun m : Mat ℚ => m.at_ y x) 0 W
      (fun x1 img1 =>
        if 0 < layer.at_ r x1 then img1.set r x1 (fmin (img1.at_ r x1) (layer.at_ r x1))
        else img1)
      (fun i => r = y ∧ i = x)
      (fun v => if 0 < layer.at_ y x then fmin v (layer.at_ y x) else v)
      (by
        intro i s hP
        obtain ⟨hr, hi⟩ := hP
        subst hr
        subst hi
        by_cases hc : 0 < layer.at_ r i
        · simp only [if_pos hc]
          simp [Mat.set, Mat.at_]
        · simp only [if_neg hc])
      (by
        intro i s hP
        by_cases hc : 0 < layer.at_ r i
        · simp only [if_pos hc]
          have hne : ¬ (y = r ∧ x = i) := fun h => hP ⟨h.1.symm, h.2.symm⟩
          simp only [Mat.set, Mat.at_, if_neg hne]
        · simp only [if_neg hc])
      (by
        rintro i j ⟨_, hi⟩ ⟨_, hj⟩
        rw [hi, hj]) img
    constructor
    · rintro ⟨hr, hx0, hxW⟩
      exact h.1 ⟨x, hx0, hxW, hr, rfl⟩
    · intro hne
      apply h.2
      rintro ⟨i, hi0, hiW, hr, rfl⟩
      exact hne ⟨hr, hi0, hiW⟩
  have outer := forRange_local (fun m : Mat ℚ => m.at_ y x) 0 H
    (fun y1 img =>
      forRange 0 W (fun x1 img1 =>
        if 0 < layer.at_ y1 x1 then img1.set y1 x1 (fmin (img1.at_ y1 x1) (layer.at_ y1 x1))
        else img1) img)
    (fun i => i = y ∧ 0 ≤ x ∧ x < W)
    (fun v => if 0 < layer.at_ y x then fmin v (layer.at_ y x) else v)
    (fun i s hP => (inner i s).1 hP)
    (fun i s hP => (inner i s).2 hP)
    (by
      rintro i j ⟨hi, _⟩ ⟨hj, _⟩
      rw [hi, hj]) image
  unfold composite_layer composite_pixel
  by_cases hin : (0 ≤ y ∧ y < H) ∧ 0 ≤ x ∧ x < W
  · rw [if_pos hin]
    exact outer.1 ⟨y, hin.1.1, hin.1.2, rfl, hin.2⟩
  · rw [if_neg hin]
    apply outer.2
    rintro ⟨i, hi0, hiH, rfl, hx⟩
    exact hin ⟨⟨hi0, hiH⟩, hx⟩


theorem fmin_eq_min (a b : ℚ) : fmin a b = min a b := by
  unfold fmin
  rcases lt_or_le b a with h | h
  · rw [if_pos h, min_eq_right (le_of_lt h)]
  · rw [if_neg (not_lt.mpr h), min_eq_left h]

theorem composite_pixel_le (W H : Int) (layer : Mat ℚ) (y x : Int) (v : ℚ) :
    composite_pixel W H layer y x v ≤ v := by
  unfold composite_pixel
  split_ifs
  · rw [fmin_eq_min]
    exact min_le_left _ _
  · exact le_refl v
  · exact le_refl v

theorem composite_pixel_comm (W H : Int) (l1 l2 : Mat ℚ) (y x : Int) (v : ℚ) :
    composite_pixel W H l2 y x (composite_pixel W H l1 y x v) =
      composite_pixel W H l1 y x (composite_pixel W H l2 y x v) := by
  unfold composite_pixel
  split_ifs <;> first | rfl | (simp only [fmin_eq_min]; exact min_right_comm _ _ _)

theorem composite_layers_at (W H : Int) (layers : List (Mat ℚ)) (image : Mat ℚ) (y x : Int) :
    (composite_layers W H image layers).at_ y x =
      layers.foldl (fun v layer => composite_pixel W H layer y x v) (image.at_ y x) := by
  induction layers generalizing image with
  | nil => rfl
  | cons l ls ih =>
    unfold composite_layers
    simp only [List.foldl_cons]
    have := ih (composite_layer W H image l)
    unfold composite_layers at this
    rw [this, composite_layer_at]

theorem draw_circles_onto_eq (W H : Int) (rd : Nat → Nat → ℚ) (circles : List Circle)
    (image : Mat ℚ) :
    draw_circles_onto W H rd circles image =
      composite_layers W H image (circle_layers W H rd 0 circles) := by
  have gen : ∀ (cs : List Circle) (img : Mat ℚ) (k : Nat),
      (cs.foldl
        (fun (st : Mat ℚ × Nat) circle =>
          (composite_layer W H st.1
            (draw_single_circle_with_gradient W H circle (rd st.2)), st.2 + 1))
        (img, k)).1 = composite_layers W H img (circle_layers W H rd k cs) := by
    intro cs
    induction cs with
    | nil => intro img k; rfl
    | cons c cs ih =>
      intro img k
      simp only [List.foldl_cons, circle_layers, composite_layers]
      exact ih _ _
  exact gen circles image 0

theorem foldl_composite_pixel_le (W H : Int) (layers : List (Mat ℚ)) (y x : Int) (v : ℚ) :
    layers.foldl (fun v layer => composite_pixel W H layer y x v) v ≤ v := by
  induction layers generalizing v with
  | nil => exact le_refl v
  | cons l ls ih =>
    simp only [List.foldl_cons]
    exact le_trans (ih _) (composite_pixel_le W H l y x v)

/-- C7. Whatever the background buffer, the scene and the texture draws, the value the
compositing loop of `draw_realistic_circles` leaves at a pixel is at most the background
value there; in particular for the background the function itself fills in. -/
theorem compositing_never_lightens (circles : List Circle) (img_width img_height : Int)
    (add_texture : Bool) (noise : Nat → ℚ) (rd : Nat → Nat → ℚ) (y x : Int) :
    (∀ image : Mat ℚ,
      (draw_circles_onto img_width img_height rd circles image).at_ y x ≤ image.at_ y x) ∧
    (draw_realistic_circles_preblur circles img_width img_height add_texture noise rd).at_ y x
      ≤ (background_noise img_width img_height noise).at_ y x := by
  have h : ∀ image : Mat ℚ,
      (draw_circles_onto img_width img_height rd circles image).at_ y x ≤ image.at_ y x := by
    intro image
    rw [draw_circles_onto_eq, composite_layers_at]
    exact foldl_composite_pixel_le _ _ _ _ _ _
  exact ⟨h, h _⟩

/-- C10. Running the compositing loop of `draw_realistic_circles` over a permutation of a
list of fixed layers gives the same value at every pixel, whereas swapping the two circles
of a scene changes the output of `generate_instance_mask`. -/
theorem compositing_order_irrelevant (img_width img_height : Int) (image : Mat ℚ)
    (layers1 layers2 : List (Mat ℚ)) (hperm : layers1.Perm layers2) :
    (∀ y x : Int,
      (composite_layers img_width img_height image layers1).at_ y x =
        (composite_layers img_width img_height image layers2).at_ y x) ∧
    (generate_instance_mask [dark_circle, other_circle] 3 3).at_ 1 1 ≠
      (generate_instance_mask [other_circle, dark_circle] 3 3).at_ 1 1 := by
  refine ⟨?_, by decide⟩
  intro y x
  rw [composite_layers_at, composite_layers_at]
  exact List.Perm.foldl_eq' hperm
    (fun l1 _ l2 _ v => composite_pixel_comm img_width img_height l1 l2 y x v) _

theorem compositing_order_irrelevant_witness :
    [flat_layer 50, flat_layer 90].Perm [flat_layer 90, flat_layer 50] ∧
    (composite_layers 2 2 (flat_layer 180) [flat_layer 50, flat_layer 90]).at_ 0 1 =
      (composite_layers 2 2 (flat_layer 180) [flat_layer 90, flat_layer 50]).at_ 0 1 :=
  ⟨List.Perm.swap _ _ _,
    (compositing_order_irrelevant 2 2 (flat_layer 180) _ _ (List.Perm.swap _ _ _)).1 0 1⟩

/-- C2 (failing input). The centre of `dark_circle` lies in its disk and is the third
pixel its layer paints; a texture draw of `-22` there makes its clamped layer value exactly
`0`; the compositing loop then skips the pixel, which keeps the background value `180`
instead of `min 180 0 = 0`. -/
theorem compositing_skips_zero_layer_value :
    in_disk dark_circle 1 1 = true ∧
    (draw_single_circle_with_gradient 3 3 dark_circle
      (fun k => if k = 2 then -22 else 0)).at_ 1 1 = 0 ∧
    (background_noise 3 3 (fun _ => 180)).at_ 1 1 = 180 ∧
    (draw_realistic_circles_preblur [dark_circle] 3 3 true (fun _ => 180)
      (fun _ k => if k = 2 then -22 else 0)).at_ 1 1 = 180 ∧
    (draw_realistic_circles_preblur [dark_circle] 3 3 true (fun _ => 180)
      (fun _ k => if k = 2 then -22 else 0)).at_ 1 2 = 30 := by
  decide!

/-- C9 (failing input). With `add_texture = false` the layer of `dark_circle` still carries
the texture draw: its centre is `26` under a draw of `5` and `21` under a draw of `0`, and
the pre-blur image changes with it; the flag has no effect on the result. -/
theorem add_texture_flag_ignored :
    (draw_single_circle_with_gradient 3 3 dark_circle (fun _ => 5)).at_ 1 1 = 26 ∧
    (draw_single_circle_with_gradient 3 3 dark_circle (fun _ => 0)).at_ 1 1 = 21 ∧
    (draw_realistic_circles_preblur [dark_circle] 3 3 false (fun _ => 180)
      (fun _ _ => 5)).at_ 1 1 = 26 ∧
    (draw_realistic_circles_preblur [dark_circle] 3 3 false (fun _ => 180)
      (fun _ _ => 0)).at_ 1 1 = 21 ∧
    (∀ (circles : List Circle) (W H : Int) (noise : Nat → ℚ) (rd : Nat → Nat → ℚ),
      draw_realistic_circles_preblur circles W H false noise rd =
        draw_realistic_circles_preblur circles W H true noise rd) := by
  refine ⟨by decide!, by decide!, by decide!, by decide!, fun _ _ _ _ _ => rfl⟩


/-! ## Theorems: annotation serializer -/


theorem digit_char_facts (d : Nat) (hd : d < 10) :
    (digit_char d).isDigit = true ∧ (digit_char d).toNat - 48 = d ∧
      (digit_char d = '0' ↔ d = 0) := by
  interval_cases d <;> decide

theorem digits_value_foldl (cs : List Char) (a : Nat) :
    cs.foldl (fun a c => 10 * a + (c.toNat - 48)) a = a * 10 ^ cs.length + digits_value cs := by
  unfold digits_value
  induction cs generalizing a with
  | nil => simp
  | cons c cs ih =>
    simp only [List.foldl_cons, List.length_cons]
    rw [ih (10 * a + (c.toNat - 48)), ih (10 * 0 + (c.toNat - 48))]
    ring

theorem digits_value_cons (c : Char) (cs : List Char) :
    digits_value (c :: cs) = (c.toNat - 48) * 10 ^ cs.length + digits_value cs := by
  have h := digits_value_foldl cs (10 * 0 + (c.toNat - 48))
  simp only [digits_value, List.foldl_cons] at h ⊢
  rw [h]
  ring

theorem show_nat_aux_value (fuel n : Nat) (acc : List Char) (h : n < fuel) :
    digits_value (show_nat_aux fuel n acc) = n * 10 ^ acc.length + digits_value acc := by
  induction fuel generalizing n acc with
  | zero => omega
  | succ fuel ih =>
    simp only [show_nat_aux]
    by_cases h10 : n < 10
    · rw [if_pos h10, digits_value_cons, (digit_char_facts n h10).2.1]
    · rw [if_neg h10, ih (n / 10) _ (by omega), digits_value_cons,
        (digit_char_facts (n % 10) (Nat.mod_lt _ (by norm_num))).2.1]
      simp only [List.length_cons]
      have hn : n = 10 * (n / 10) + n % 10 := (Nat.div_add_mod n 10).symm
      generalize n / 10 = q at hn ⊢
      generalize n % 10 = r at hn ⊢
      subst hn
      ring

theorem show_nat_aux_digits (fuel n : Nat) (acc : List Char)
    (hacc : ∀ c ∈ acc, c.isDigit = true) :
    ∀ c ∈ show_nat_aux fuel n acc, c.isDigit = true := by
  induction fuel generalizing n acc with
  | zero => simpa [show_nat_aux] using hacc
  | succ fuel ih =>
    simp only [show_nat_aux]
    by_cases h10 : n < 10
    · rw [if_pos h10]
      intro c hc
      rcases List.mem_cons.mp hc with rfl | hc
      · exact (digit_char_facts n h10).1
      · exact hacc c hc
    · rw [if_neg h10]
      apply ih
      intro c hc
      rcases List.mem_cons.mp hc with rfl | hc
      · exact (digit_char_facts _ (Nat.mod_lt _ (by norm_num))).1
      · exact hacc c hc

/-- The numeral of a positive number starts with a non-zero digit. -/
theorem show_nat_aux_head (fuel n : Nat) (acc : List Char) (h : n < fuel) (h1 : 1 ≤ n) :
    ∃ c rest, show_nat_aux fuel n acc = c :: rest ∧ c ≠ '0' := by
  induction fuel generalizing n acc with
  | zero => omega
  | succ fuel ih =>
    simp only [show_nat_aux]
    by_cases h10 : n < 10
    · rw [if_pos h10]
      refine ⟨digit_char n, acc, rfl, ?_⟩
      intro h0
      have := (digit_char_facts n h10).2.2.mp h0
      omega
    · rw [if_neg h10]
      exact ih (n / 10) _ (by omega) (by omega)

theorem read_int_show_nat (neg : Bool) (n : Nat) :
    read_int neg (show_nat n) = some (if neg then -(n : Int) else (n : Int)) := by
  have hv : digits_value (show_nat n) = n := by
    unfold show_nat
    rw [show_nat_aux_value _ _ _ (by omega)]
    simp [digits_value]
  rcases Nat.eq_zero_or_pos n with h0 | hpos
  · subst h0
    cases neg <;> rfl
  · obtain ⟨c, rest, hc, hne⟩ := show_nat_aux_head (n + 1) n [] (by omega) hpos
    have hs : show_nat n = c :: rest := hc
    rw [hs] at hv
    rw [hs]
    unfold read_int
    simp only [hne, false_and, if_false, hv]
    cases neg <;> rfl

theorem Lexes.nil (s : LexState) : Lexes s [] s := rfl

theorem Lexes.cons {s s1 s2 : LexState} {c : Char} {cs : List Char}
    (h1 : lex_step s c = some s1) (h2 : Lexes s1 cs s2) : Lexes s (c :: cs) s2 := by
  unfold Lexes at *
  rw [List.foldlM_cons, h1]
  exact h2

theorem Lexes.append {s s1 s2 : LexState} {a b : List Char}
    (h1 : Lexes s a s1) (h2 : Lexes s1 b s2) : Lexes s (a ++ b) s2 := by
  unfold Lexes at *
  rw [List.foldlM_append, h1]
  exact h2

theorem lex_digits (neg : Bool) (ts : List Token) (ds : List Char)
    (hds : ∀ c ∈ ds, c.isDigit = true) (acc : List Char) :
    Lexes ⟨.in_num neg acc, ts⟩ ds ⟨.in_num neg (acc ++ ds), ts⟩ := by
  induction ds generalizing acc with
  | nil =>
    rw [List.append_nil]
    exact Lexes.nil _
  | cons d ds ih =>
    have hd : d.isDigit = true := hds d (List.mem_cons_self _ _)
    have hstep : lex_step ⟨.in_num neg acc, ts⟩ d = some ⟨.in_num neg (acc ++ [d]), ts⟩ := by
      simp only [lex_step, hd, if_true]
    have := ih (fun c hc => hds c (List.mem_cons_of_mem _ hc)) (acc ++ [d])
    rw [List.append_assoc, List.singleton_append] at this
    exact Lexes.cons hstep this

theorem idle_char_digit (c : Char) (hc : c.isDigit = true) :
    idle_char c = some (.in_num false [c], []) := by
  have h1 : c ≠ ' ' := by rintro rfl; exact absurd hc (by decide)
  have h2 : c ≠ '\n' := by rintro rfl; exact absurd hc (by decide)
  have h3 : c ≠ '\t' := by rintro rfl; exact absurd hc (by decide)
  have h4 : c ≠ '\r' := by rintro rfl; exact absurd hc (by decide)
  have h5 : c ≠ '{' := by rintro rfl; exact absurd hc (by decide)
  have h6 : c ≠ '}' := by rintro rfl; exact absurd hc (by decide)
  have h7 : c ≠ '[' := by rintro rfl; exact absurd hc (by decide)
  have h8 : c ≠ ']' := by rintro rfl; exact absurd hc (by decide)
  have h9 : c ≠ ':' := by rintro rfl; exact absurd hc (by decide)
  have h10 : c ≠ ',' := by rintro rfl; exact absurd hc (by decide)
  have h11 : c ≠ '"' := by rintro rfl; exact absurd hc (by decide)
  have h12 : c ≠ '-' := by rintro rfl; exact absurd hc (by decide)
  unfold idle_char
  rw [if_neg (by simp only [h1, h2, h3, h4, or_self, not_false_eq_true]), if_neg h5,
    if_neg h6, if_neg h7, if_neg h8, if_neg h9, if_neg h10, if_neg h11, if_neg h12, if_pos hc]

theorem lex_idle_digit (ts : List Token) (c : Char) (hc : c.isDigit = true) :
    lex_idle ts c = some ⟨.in_num false [c], ts⟩ := by
  unfold lex_idle
  rw [idle_char_digit c hc]
  simp only [Option.map_some', List.append_nil]

theorem show_nat_digits (n : Nat) : ∀ c ∈ show_nat n, c.isDigit = true :=
  show_nat_aux_digits (n + 1) n [] (by simp)

theorem show_nat_ne_nil (n : Nat) : ∃ c rest, show_nat n = c :: rest := by
  rcases Nat.eq_zero_or_pos n with h0 | hpos
  · subst h0
    exact ⟨'0', [], rfl⟩
  · obtain ⟨c, rest, hc, _⟩ := show_nat_aux_head (n + 1) n [] (by omega) hpos
    exact ⟨c, rest, hc⟩

/-- Reading the numeral of `i` from the idle mode leaves the lexer inside the number. -/
theorem lex_show_int (ts : List Token) (i : Int) :
    Lexes ⟨.idle, ts⟩ (show_int i) ⟨.in_num (decide (i < 0)) (show_nat i.natAbs), ts⟩ := by
  unfold show_int
  by_cases hneg : i < 0
  · rw [if_pos hneg, decide_eq_true hneg]
    have h := lex_digits true ts (show_nat i.natAbs) (show_nat_digits _) []
    rw [List.nil_append] at h
    have hstep : lex_step ⟨.idle, ts⟩ '-' = some ⟨.in_num true [], ts⟩ := by
      have hc : idle_char '-' = some (.in_num true [], []) := by decide
      simp only [lex_step, lex_idle, hc, Option.map_some', List.append_nil]
    exact Lexes.cons hstep h
  · rw [if_neg hneg, decide_eq_false hneg]
    obtain ⟨c, rest, hs⟩ := show_nat_ne_nil i.natAbs
    have hd := show_nat_digits i.natAbs
    rw [hs] at hd ⊢
    have hc : c.isDigit = true := hd c (List.mem_cons_self _ _)
    have h := lex_digits false ts rest (fun x hx => hd x (List.mem_cons_of_mem _ hx)) [c]
    rw [List.singleton_append] at h
    have hstep : lex_step ⟨.idle, ts⟩ c = some ⟨.in_num false [c], ts⟩ := by
      simp only [lex_step]
      exact lex_idle_digit ts c hc
    exact Lexes.cons hstep h

theorem read_int_show_int (i : Int) :
    read_int (decide (i < 0)) (show_nat i.natAbs) = some i := by
  rw [read_int_show_nat]
  by_cases hneg : i < 0
  · simp only [hneg, decide_True, if_true]
    congr 1
    omega
  · simp only [hneg, decide_False]
    congr 1
    simp only [Bool.false_eq_true, if_false]
    omega

theorem lex_idle_prepend (ts ts0 : List Token) (c : Char) :
    lex_idle (ts ++ ts0) c =
      (lex_idle ts0 c).map (fun s => (⟨s.mode, ts ++ s.tokens⟩ : LexState)) := by
  unfold lex_idle
  cases idle_char c <;> simp

theorem lex_step_prepend (ts : List Token) (st : LexState) (c : Char) :
    lex_step ⟨st.mode, ts ++ st.tokens⟩ c =
      (lex_step st c).map (fun s => (⟨s.mode, ts ++ s.tokens⟩ : LexState)) := by
  unfold lex_step
  cases hm : st.mode with
  | idle => simp only [lex_idle_prepend]
  | in_str acc =>
    simp only
    split_ifs <;> simp
  | in_num neg digits =>
    simp only
    split_ifs
    · simp
    · cases read_int neg digits with
      | none => rfl
      | some n =>
        simp only
        rw [List.append_assoc, lex_idle_prepend]

/-- The tokens already read do not influence the lexer. -/
theorem lex_run_prepend (ts : List Token) (cs : List Char) (st : LexState) :
    cs.foldlM lex_step ⟨st.mode, ts ++ st.tokens⟩ =
      (cs.foldlM lex_step st).map (fun s => (⟨s.mode, ts ++ s.tokens⟩ : LexState)) := by
  induction cs generalizing st with
  | nil => simp
  | cons c cs ih =>
    simp only [List.foldlM, lex_step_prepend]
    cases h : lex_step st c with
    | none => simp
    | some s1 =>
      simp only [Option.map_some', Option.bind_eq_bind, Option.some_bind]
      exact ih s1

theorem lex_literal (cs : List Char) (toks : List Token)
    (h : cs.foldlM lex_step ⟨.idle, []⟩ = some ⟨.idle, toks⟩) (ts : List Token) :
    Lexes ⟨.idle, ts⟩ cs ⟨.idle, ts ++ toks⟩ := by
  have := lex_run_prepend ts cs ⟨.idle, []⟩
  simp only [List.append_nil] at this
  unfold Lexes
  rw [this, h]
  rfl

/-- A character that is not a digit completes the numeral of `i`. -/
theorem lex_step_after_int (ts : List Token) (i : Int) (c : Char) (hc : c.isDigit = false) :
    lex_step ⟨.in_num (decide (i < 0)) (show_nat i.natAbs), ts⟩ c =
      lex_idle (ts ++ [.int i]) c := by
  simp only [lex_step, hc, read_int_show_int, Bool.false_eq_true, if_false]

theorem lex_after_int_comma (ts : List Token) (i : Int) :
    Lexes ⟨.in_num (decide (i < 0)) (show_nat i.natAbs), ts⟩ [',', '\n']
      ⟨.idle, ts ++ [.int i] ++ [.comma]⟩ := by
  have h1 : lex_step ⟨.in_num (decide (i < 0)) (show_nat i.natAbs), ts⟩ ',' =
      some ⟨.idle, ts ++ [.int i] ++ [.comma]⟩ := by
    rw [lex_step_after_int ts i ',' (by decide)]
    rfl
  have h2 : lex_step ⟨.idle, ts ++ [.int i] ++ [.comma]⟩ '\n' =
      some ⟨.idle, ts ++ [.int i] ++ [.comma]⟩ := by
    have hc : idle_char '\n' = some (.idle, []) := by decide
    simp only [lex_step, lex_idle, hc, Option.map_some', List.append_nil]
  exact Lexes.cons h1 (Lexes.cons h2 (Lexes.nil _))

theorem lex_after_int_newline (ts : List Token) (i : Int) :
    Lexes ⟨.in_num (decide (i < 0)) (show_nat i.natAbs), ts⟩ ['\n']
      ⟨.idle, ts ++ [.int i]⟩ := by
  have h1 : lex_step ⟨.in_num (decide (i < 0)) (show_nat i.natAbs), ts⟩ '\n' =
      some ⟨.idle, ts ++ [.int i]⟩ := by
    rw [lex_step_after_int ts i '\n' (by decide)]
    have hc : idle_char '\n' = some (.idle, []) := by decide
    simp only [lex_idle, hc, Option.map_some', List.append_nil]
  exact Lexes.cons h1 (Lexes.nil _)

theorem Lexes.tokens_eq {s : LexState} {cs : List Char} {m : LexMode} {t1 t2 : List Token}
    (h : Lexes s cs ⟨m, t1⟩) (e : t1 = t2) : Lexes s cs ⟨m, t2⟩ := e ▸ h

theorem lex_record (ts : List Token) (c : Circle) :
    Lexes ⟨.idle, ts⟩ (record_chars c) ⟨.idle, ts ++ record_tokens c⟩ := by
  have a0 := lex_literal "    \x7b\n".toList [.lbrace] (by decide!) ts
  have a1 := a0.append (lex_literal "      \"id\": ".toList [.str "id", .colon] (by decide!) _)
  have a2 := (a1.append (lex_show_int _ c.id)).append (lex_after_int_comma _ c.id)
  have a3 := a2.append (lex_literal "      \"x\": ".toList [.str "x", .colon] (by decide!) _)
  have a4 := (a3.append (lex_show_int _ c.x)).append (lex_after_int_comma _ c.x)
  have a5 := a4.append (lex_literal "      \"y\": ".toList [.str "y", .colon] (by decide!) _)
  have a6 := (a5.append (lex_show_int _ c.y)).append (lex_after_int_comma _ c.y)
  have a7 := a6.append
    (lex_literal "      \"radius\": ".toList [.str "radius", .colon] (by decide!) _)
  have a8 := (a7.append (lex_show_int _ c.radius)).append (lex_after_int_comma _ c.radius)
  have a9 := a8.append
    (lex_literal "      \"intensity\": ".toList [.str "intensity", .colon] (by decide!) _)
  have a10 := (a9.append (lex_show_int _ c.intensity)).append
    (lex_after_int_newline _ c.intensity)
  have a11 := a10.append (lex_literal "    \x7d".toList [.rbrace] (by decide!) _)
  exact Lexes.tokens_eq a11 (by
    simp only [record_tokens, List.append_assoc, List.cons_append, List.nil_append])

theorem show_int_natCast (n : Nat) : show_nat n = show_int (n : Int) := by
  unfold show_int
  rw [if_neg (by omega)]
  rfl

theorem lex_records (cs : List Circle) (size i : Nat) (ts : List Token)
    (h : i + cs.length = size) :
    Lexes ⟨.idle, ts⟩ (records_chars size i cs) ⟨.idle, ts ++ records_tokens cs⟩ := by
  induction cs generalizing i ts with
  | nil =>
    rw [records_tokens, List.append_nil]
    exact Lexes.nil _
  | cons c rest ih =>
    have hnl : ∀ ts : List Token, Lexes ⟨.idle, ts⟩ "\n".toList ⟨.idle, ts⟩ := fun ts =>
      Lexes.tokens_eq (lex_literal "\n".toList [] (by decide!) ts) (List.append_nil ts)
    cases rest with
    | nil =>
      have hlast : ¬ i < size - 1 := by
        simp only [List.length_cons, List.length_nil] at h
        omega
      rw [records_chars, if_neg hlast]
      have a := (((lex_record ts c).append (Lexes.nil _)).append (hnl _)).append (Lexes.nil _)
      exact a
    | cons d r =>
      have hmore : i < size - 1 := by
        simp only [List.length_cons] at h
        omega
      have hih := ih (i + 1) (ts ++ record_tokens c ++ [.comma]) (by
        simp only [List.length_cons] at h ⊢
        omega)
      rw [records_chars, if_pos hmore]
      have a := (((lex_record ts c).append
        (lex_literal ",".toList [.comma] (by decide!) _)).append (hnl _)).append hih
      exact Lexes.tokens_eq a (by
        simp only [records_tokens, List.append_assoc])

theorem lex_save_instance_info (circles : List Circle) :
    lex (save_instance_info circles).toList = some (annotation_tokens circles) := by
  have a0 := lex_literal "\x7b\n".toList [.lbrace] (by decide!) []
  have a1 := a0.append
    (lex_literal "  \"num_instances\": ".toList [.str "num_instances", .colon] (by decide!) _)
  have a2 := (a1.append (lex_show_int _ (circles.length : Int))).append
    (lex_after_int_comma _ (circles.length : Int))
  have a3 := a2.append (lex_literal "  \"circles\": [\n".toList
    [.str "circles", .colon, .lbrack] (by decide!) _)
  have a4 := a3.append (lex_records circles circles.length 0 _ (by omega))
  have a5 := a4.append (lex_literal "  ]\n".toList [.rbrack] (by decide!) _)
  have a6 := a5.append (lex_literal "\x7d\n".toList [.rbrace] (by decide!) _)
  rw [← show_int_natCast] at a6
  have a7 : Lexes ⟨.idle, []⟩ (save_instance_info circles).toList
      ⟨.idle, annotation_tokens circles⟩ :=
    Lexes.tokens_eq a6 (by
      simp only [annotation_tokens, List.append_assoc, List.cons_append, List.nil_append])
  unfold lex
  rw [a7]
  rfl

theorem parse_record (c : Circle) (elems : List Json) (rest : List Frame) (e : Expect)
    (he : e = .value ∨ e = .value_or_close) :
    (record_tokens c).foldlM parse_step ⟨.arr elems :: rest, e, none⟩ =
      some ⟨.arr (elems ++ [circle_json c]) :: rest, .comma_or_close, none⟩ := by
  rcases he with rfl | rfl <;> rfl

theorem parse_records (cs : List Circle) (c : Circle) (elems : List Json)
    (rest : List Frame) (e : Expect) (he : e = .value ∨ e = .value_or_close) :
    (records_tokens (c :: cs)).foldlM parse_step ⟨.arr elems :: rest, e, none⟩ =
      some ⟨.arr (elems ++ (c :: cs).map circle_json) :: rest, .comma_or_close, none⟩ := by
  induction cs generalizing c elems e with
  | nil =>
    simp only [records_tokens, List.map_cons, List.map_nil]
    exact parse_record c elems rest e he
  | cons d r ih =>
    simp only [records_tokens, List.foldlM_append, parse_record c elems rest e he,
      Option.some_bind, Option.bind_eq_bind]
    have hcomma : [Token.comma].foldlM parse_step
        ⟨.arr (elems ++ [circle_json c]) :: rest, .comma_or_close, none⟩ =
        some ⟨.arr (elems ++ [circle_json c]) :: rest, .value, none⟩ := rfl
    rw [hcomma]
    simp only [Option.some_bind, Option.bind_eq_bind]
    rw [ih d (elems ++ [circle_json c]) .value (Or.inl rfl)]
    simp only [List.map_cons, List.append_assoc, List.singleton_append]

theorem parse_annotation_tokens (circles : List Circle) :
    parse_tokens (annotation_tokens circles) = some (annotation_json circles) := by
  unfold parse_tokens annotation_tokens
  cases circles with
  | nil => rfl
  | cons c cs =>
    have hhead : [Token.lbrace, .str "num_instances", .colon,
        .int (((c :: cs).length : Nat) : Int), .comma, .str "circles", .colon,
        .lbrack].foldlM parse_step ⟨[], .value, none⟩ =
        some ⟨[.arr [], .obj [("num_instances", .num (((c :: cs).length : Nat) : Int))]
          (some "circles")], .value_or_close, none⟩ := rfl
    simp only [List.foldlM_append, hhead, Option.some_bind, Option.bind_eq_bind,
      parse_records cs c [] _ .value_or_close (Or.inr rfl)]
    rfl

/-- C6. For every scene, the empty one included, the text written by `save_instance_info`
is a well-formed JSON document ending in a newline; it reads back as the object whose
`num_instances` is the number of circles and whose `circles` array holds, in scene order,
one record per circle with exactly its `id`, `x`, `y`, `radius` and `intensity`; its
tokens have a comma between consecutive records and none after the last. -/
theorem save_instance_info_round_trip (circles : List Circle) :
    parse_json (save_instance_info circles) = some (annotation_json circles) ∧
    lex (save_instance_info circles).toList = some (annotation_tokens circles) ∧
    (save_instance_info circles).toList.getLast? = some '\n' := by
  refine ⟨?_, lex_save_instance_info circles, ?_⟩
  · unfold parse_json
    rw [lex_save_instance_info]
    exact parse_annotation_tokens circles
  · have h : (save_instance_info circles).toList =
        ("\x7b\n".toList ++ "  \"num_instances\": ".toList ++ show_nat circles.length ++
          ",\n".toList ++ "  \"circles\": [\n".toList ++
          records_chars circles.length 0 circles ++ "  ]\n".toList) ++ ['}', '\n'] := rfl
    rw [h, List.getLast?_append]
    rfl


/-! ## Theorems: dataset driver -/

end SIMcTEM
